import Mathlib

/-! mishegos: dispatcher, worker, crash monitor and filter.

A shallow embedding of `src/mishegos/mishegos.c`.  Arrays are total functions
on `Nat`, machine integers are `Nat`/`Int` with explicit wrap-around where the
source can overflow, shared memory is passed explicitly.
-/

namespace Mishegos

/-! ## Data model -/

/-- Modelled from the spec: `decode_status` of `mish_common.h`, which is not
among the sources.  The code only ever tests for `S_SUCCESS` and writes
`S_CRASH`; every other value a decoder may store is covered by `S_OTHER`. -/
inductive decode_status where
  | S_NONE
  | S_SUCCESS
  | S_FAILURE
  | S_CRASH
  | S_OTHER (code : Nat)
deriving DecidableEq, Repr

/-- Modelled from the spec: `input_slot` of `mish_common.h`: a length and the
raw candidate bytes. -/
structure input_slot where
  len : Nat
  raw_insn : List UInt8
deriving DecidableEq, Repr

/-- Modelled from the spec: `output_slot` of `mish_common.h`: `status`,
`ndecoded` (a count of bytes consumed, an unsigned field narrower than `int`),
`len` (unsigned length of the payload) and the `result` buffer, which
`static_assert` at mishegos.c:211 places at the end of the record. -/
structure output_slot where
  status : decode_status
  ndecoded : Nat
  len : Nat
  result : List UInt8
deriving DecidableEq, Repr

/-- Modelled from the spec: the constants and object representations that
`mish_common.h` fixes and that the sources under study only use:
`MISHEGOS_MAX_NWORKERS`, `MISHEGOS_DEC_MAXLEN`, `sizeof(input_slot)`,
`offsetof(output_slot, result)`, `sizeof(size_t)`, and the byte images of an
input slot and of the fields that precede `result` in an output slot. -/
structure mish_common where
  MISHEGOS_MAX_NWORKERS : Nat
  MISHEGOS_DEC_MAXLEN : Nat
  sizeof_input_slot : Nat
  input_image : input_slot → List UInt8
  input_image_length : ∀ i, (input_image i).length = sizeof_input_slot
  offsetof_result : Nat
  offsetof_result_pos : 0 < offsetof_result
  header_image : output_slot → List UInt8
  header_image_length : ∀ o, (header_image o).length = offsetof_result
  sizeof_size_t : Nat

/-- The value field of `mish_atomic_uint` is a 32-bit unsigned integer. -/
def UINT32_MOD : Nat := 2 ^ 32

/-- Source constant `MISHEGOS_NUM_SLOTS_PER_CHUNK`. -/
def MISHEGOS_NUM_SLOTS_PER_CHUNK : Nat := 4096

/-- Source constant `MISHEGOS_NUM_CHUNKS`. -/
def MISHEGOS_NUM_CHUNKS : Nat := 16

/-- Source `mish_atomic_fetch_add`: new value (the sum of the addend and the
old value, modulo 2^32) and old value. -/
def mish_atomic_fetch_add (var val : Nat) : Nat × Nat :=
  ((val + var) % UINT32_MOD, var)

/-- The `uint32_t` image of the `int` constant `-1` passed to
`mish_atomic_fetch_add`. -/
def MINUS_ONE : Nat := UINT32_MOD - 1

/-- Source `input_chunk`. -/
structure input_chunk where
  generation : Nat
  remaining_workers : Nat
  input_count : Nat
  inputs : Nat → input_slot

/-- Source `output_chunk`.  The array `outputs` has
`MISHEGOS_NUM_SLOTS_PER_CHUNK` slots.  `beyond` is not a member of the C
struct: it stands for the bytes that follow the array in the shared mapping
(the next chunk of the ring), which only a read past the array reaches. -/
structure output_chunk where
  remaining : Nat
  outputs : Nat → output_slot
  beyond : Nat → UInt8

/-- Source `struct worker_config`.  The pointer `soname` is the memory it
points to, as a function of the offset; `input_chunks` is shared and passed
separately. -/
structure worker_config where
  soname_len : Nat
  soname : Nat → UInt8
  workerno : Nat
  output_chunks : Nat → output_chunk
  start_gen : Nat
  start_idx : Nat
  sigchld : Bool
  pid : Nat

/-! ## Filter (`process`, lines 180-199) -/

/-- Local variables of the first loop of `process`. -/
structure process_locals where
  num_success : Int
  ndecoded_same : Bool
  last_ndecoded : Int
deriving DecidableEq, Repr

/-- Initial values: `num_success = 0`, `ndecoded_same = true`,
`last_ndecoded = -1`. -/
def process_locals_init : process_locals :=
  { num_success := 0, ndecoded_same := true, last_ndecoded := -1 }

/-- One iteration of the loop at lines 185-194, for the output of worker j. -/
def process_iter (v : process_locals) (output : output_slot) : process_locals :=
  let v1 := { v with num_success :=
    v.num_success + (if output.status = decode_status.S_SUCCESS then 1 else 0) }
  if output.status = decode_status.S_SUCCESS then
    if v1.last_ndecoded = -1 then
      { v1 with last_ndecoded := (output.ndecoded : Int) }
    else if v1.last_ndecoded ≠ (output.ndecoded : Int) then
      { v1 with ndecoded_same := false }
    else v1
  else v1

/-- The output slot `workers[j].output_chunks[slot].outputs[idx]`. -/
def output_at (workers : Nat → worker_config) (slot idx j : Nat) : output_slot :=
  ((workers j).output_chunks slot).outputs idx

/-- The loop `for (int j = 0; j < nworkers; j++)` at lines 185-194. -/
def process_scan (slot idx nworkers : Nat) (workers : Nat → worker_config) :
    process_locals :=
  (List.range nworkers).foldl
    (fun v j => process_iter v (output_at workers slot idx j)) process_locals_init

/-- Whether control reaches the label `keep:` (lines 195-199). -/
def process_keep (filter_min_success filter_max_success : Int)
    (filter_ndecoded_same : Bool) (slot idx nworkers : Nat)
    (workers : Nat → worker_config) : Bool :=
  let v := process_scan slot idx nworkers workers
  if v.num_success ≥ filter_min_success ∧ v.num_success ≤ filter_max_success then true
  else if filter_ndecoded_same && !v.ndecoded_same then true
  else false


/-! ## Specification-side definitions for the filter -/

/-- The N-tuple of output slots that `process` inspects for one (chunk, slot). -/
def outputs_of (workers : Nat → worker_config) (slot idx nworkers : Nat) :
    List output_slot :=
  (List.range nworkers).map (output_at workers slot idx)

/-- Spec wording: `num_success` is the count of outputs whose status is SUCCESS. -/
def spec_num_success (outs : List output_slot) : Nat :=
  outs.countP (fun o => o.status = decode_status.S_SUCCESS)

/-- Spec wording: `ndecoded_same` holds when all SUCCESS outputs report the
same `ndecoded`. -/
def spec_ndecoded_same (outs : List output_slot) : Prop :=
  ∀ a ∈ outs, ∀ b ∈ outs, a.status = decode_status.S_SUCCESS →
    b.status = decode_status.S_SUCCESS → a.ndecoded = b.ndecoded

instance (outs : List output_slot) : Decidable (spec_ndecoded_same outs) := by
  unfold spec_ndecoded_same; infer_instance

/-- Loop invariant of the scan after the outputs `pre` have been visited. -/
def scan_inv (v : process_locals) (pre : List output_slot) : Prop :=
  v.num_success = (spec_num_success pre : Int) ∧
  (v.last_ndecoded = -1 →
    v.ndecoded_same = true ∧ ∀ a ∈ pre, a.status ≠ decode_status.S_SUCCESS) ∧
  (v.last_ndecoded ≠ -1 →
    (∃ a ∈ pre, a.status = decode_status.S_SUCCESS ∧ (a.ndecoded : Int) = v.last_ndecoded) ∧
    (v.ndecoded_same = true ↔
      ∀ a ∈ pre, a.status = decode_status.S_SUCCESS → (a.ndecoded : Int) = v.last_ndecoded))


/-! ## Emission (`process`, lines 201-215) -/

/-- Little-endian object representation of an unsigned integer of `w` bytes. -/
def le_bytes : Nat → Nat → List UInt8
  | 0, _ => []
  | w + 1, x => UInt8.ofNat (x % 256) :: le_bytes w (x / 256)

/-- The `result` array of an output slot: exactly `MISHEGOS_DEC_MAXLEN` bytes. -/
def result_image (K : mish_common) (o : output_slot) : List UInt8 :=
  (List.range K.MISHEGOS_DEC_MAXLEN).map (fun k => o.result.getD k 0)

/-- Object representation of an output slot: the fields that precede `result`
and then the `result` array (mishegos.c:211 asserts that nothing follows). -/
def output_slot_image (K : mish_common) (o : output_slot) : List UInt8 :=
  K.header_image o ++ result_image K o

/-- The bytes of the slots that follow slot `idx` in the array `outputs` of a
chunk, up to the last slot of the array. -/
def outputs_after (K : mish_common) (oc : output_chunk) (idx : Nat) : List UInt8 :=
  ((List.range' (idx + 1) (MISHEGOS_NUM_SLOTS_PER_CHUNK - (idx + 1))).map
    (fun k => output_slot_image K (oc.outputs k))).flatten

/-- The call `fwrite(&outputs[idx], n, 1, stdout)`: the `n` bytes of memory that
start at slot `idx` of the chunk's array.  A size within the slot reads the
slot only; a larger size runs on into the slots that follow in the array and,
past its last slot, into the memory beyond it. -/
def fwrite_outputs (K : mish_common) (oc : output_chunk) (idx n : Nat) : List UInt8 :=
  (output_slot_image K (oc.outputs idx)
    ++ (outputs_after K oc idx ++ (List.range n).map oc.beyond)).take n

/-- The call `fwrite(workers[j].soname, 1, workers[j].soname_len, stdout)`. -/
def fwrite_soname (w : worker_config) : List UInt8 :=
  (List.range w.soname_len).map w.soname

/-- Body of the second loop of `process` (lines 207-213) for worker `j`. -/
def process_emit_worker (K : mish_common) (slot idx : Nat) (w : worker_config) :
    List UInt8 :=
  le_bytes K.sizeof_size_t w.soname_len ++ fwrite_soname w ++
    fwrite_outputs K (w.output_chunks slot) idx
      (K.offsetof_result + ((w.output_chunks slot).outputs idx).len)

/-- The code after the label `keep:` (lines 201-214): the bytes written to
`stdout`.  `sizeof(nworkers)` is 4. -/
def process_emit (K : mish_common) (slot idx : Nat) (input_chunks : Nat → input_chunk)
    (nworkers : Nat) (workers : Nat → worker_config) : List UInt8 :=
  le_bytes 4 nworkers ++ K.input_image ((input_chunks slot).inputs idx) ++
    ((List.range nworkers).map (fun j => process_emit_worker K slot idx (workers j))).flatten

/-- Source `process`: the bytes it appends to `stdout`, none when it returns at
line 199. -/
def process (K : mish_common) (filter_min_success filter_max_success : Int)
    (filter_ndecoded_same : Bool) (slot idx : Nat) (input_chunks : Nat → input_chunk)
    (nworkers : Nat) (workers : Nat → worker_config) : List UInt8 :=
  if process_keep filter_min_success filter_max_success filter_ndecoded_same
      slot idx nworkers workers
  then process_emit K slot idx input_chunks nworkers workers
  else []

/-- The bytes that `fwrite` takes from the address of `result` when it writes
`offsetof(result) + n` bytes of the slot `outputs[idx]`. -/
def result_bytes (K : mish_common) (oc : output_chunk) (idx n : Nat) : List UInt8 :=
  (fwrite_outputs K oc idx (K.offsetof_result + n)).drop K.offsetof_result

/-- Spec wording: one output blob is the name length (machine word), that many
name bytes, the output header and `len` bytes of `result`. -/
def spec_blob (K : mish_common) (slot idx : Nat) (w : worker_config) : List UInt8 :=
  le_bytes K.sizeof_size_t w.soname_len ++ (List.range w.soname_len).map w.soname ++
    (K.header_image ((w.output_chunks slot).outputs idx) ++
      (result_image K ((w.output_chunks slot).outputs idx)).take
        ((w.output_chunks slot).outputs idx).len)

/-- Spec wording: a record is `N: u32 | input_slot | blob × N`. -/
def spec_record (K : mish_common) (slot idx : Nat) (input_chunks : Nat → input_chunk)
    (nworkers : Nat) (workers : Nat → worker_config) : List UInt8 :=
  le_bytes 4 nworkers ++ K.input_image ((input_chunks slot).inputs idx) ++
    ((List.range nworkers).map (fun j => spec_blob K slot idx (workers j))).flatten

/-- Value of a little-endian byte string. -/
def le_value : List UInt8 → Nat
  | [] => 0
  | b :: rest => b.toNat + 256 * le_value rest

/-- Numeric code of a decode status in the example layout. -/
def decode_status.code : decode_status → Nat
  | .S_NONE => 0
  | .S_SUCCESS => 1
  | .S_FAILURE => 2
  | .S_CRASH => 3
  | .S_OTHER c => c

/-- Modelled from the spec: one admissible instance of `mish_common.h`: at most
31 workers, a 248-byte result buffer, a 26-byte candidate preceded by its
length byte, and an output header made of a 4-byte status and two 2-byte
counters, on a machine with 8-byte words. -/
def example_common : mish_common where
  MISHEGOS_MAX_NWORKERS := 31
  MISHEGOS_DEC_MAXLEN := 248
  sizeof_input_slot := 27
  input_image := fun i =>
    le_bytes 1 i.len ++ (List.range 26).map (fun k => i.raw_insn.getD k 0)
  input_image_length := by intro i; simp [le_bytes]
  offsetof_result := 8
  offsetof_result_pos := by decide
  header_image := fun o => le_bytes 4 o.status.code ++ le_bytes 2 o.ndecoded ++ le_bytes 2 o.len
  header_image_length := by intro o; simp [le_bytes]
  sizeof_size_t := 8

/-- An output slot with the given status, `ndecoded` and payload. -/
def example_output (s : decode_status) (n : Nat) (payload : List UInt8) : output_slot :=
  { status := s, ndecoded := n, len := payload.length, result := payload }

/-- A worker whose every output slot is `o` and whose name is `name`. -/
def example_worker (name : List UInt8) (o : output_slot) : worker_config :=
  { soname_len := name.length
    soname := fun k => name.getD k 0
    workerno := 0
    output_chunks := fun _ => { remaining := 0, outputs := fun _ => o, beyond := fun _ => 0 }
    start_gen := 1
    start_idx := 0
    sigchld := false
    pid := 0 }

/-- Two workers: the first accepts two bytes, the second rejects. -/
def example_workers : Nat → worker_config
  | 0 => example_worker [97] (example_output decode_status.S_SUCCESS 2 [110, 111, 112])
  | _ => example_worker [98, 99] (example_output decode_status.S_FAILURE 0 [])

/-- An input ring whose every slot holds the two-byte candidate `90 c3`. -/
def example_input_chunks : Nat → input_chunk :=
  fun _ => { generation := 1, remaining_workers := 0, input_count := 1,
             inputs := fun _ => { len := 2, raw_insn := [144, 195] } }

/-- A worker whose slot 0 of every chunk reports SUCCESS with `len = 252`, four
more than the 248 bytes of its result buffer (all `65`), and whose other slots
are marked CRASH with an empty payload. -/
def example_long_worker : worker_config :=
  { soname_len := 1
    soname := fun _ => 97
    workerno := 0
    output_chunks := fun _ =>
      { remaining := 0
        outputs := fun k =>
          if k = 0 then
            { status := decode_status.S_SUCCESS, ndecoded := 2, len := 252,
              result := List.replicate 248 65 }
          else { status := decode_status.S_CRASH, ndecoded := 0, len := 0, result := [] }
        beyond := fun _ => 0 }
    start_gen := 1
    start_idx := 0
    sigchld := false
    pid := 0 }

/-! ## Option parsing and filter resolution (`main`, lines 301-343 and 397-402) -/

/-- The file-scope variables that option parsing writes: `thread_mode`
(line 226), the three filter variables (lines 176-178) and the local
`mutator_name`. -/
structure globals where
  thread_mode : Bool
  filter_min_success : Int
  filter_max_success : Int
  filter_ndecoded_same : Bool
  mutator_name : Option (List Char)
deriving DecidableEq, Repr

/-- Static initialisers: `thread_mode = false`, `filter_min_success = 1`,
`filter_max_success = MISHEGOS_MAX_NWORKERS`, `filter_ndecoded_same = false`. -/
def globals_init (K : mish_common) : globals :=
  { thread_mode := false
    filter_min_success := 1
    filter_max_success := (K.MISHEGOS_MAX_NWORKERS : Int)
    filter_ndecoded_same := false
    mutator_name := none }

/-- C library `isspace` in the C locale. -/
def isspace (c : Char) : Bool :=
  c.toNat = 32 || (9 ≤ c.toNat && c.toNat ≤ 13)

/-- Value of a character as a digit, for bases up to 36. -/
def digit_value (c : Char) : Option Nat :=
  if 48 ≤ c.toNat ∧ c.toNat ≤ 57 then some (c.toNat - 48)
  else if 97 ≤ c.toNat ∧ c.toNat ≤ 122 then some (c.toNat - 97 + 10)
  else if 65 ≤ c.toNat ∧ c.toNat ≤ 90 then some (c.toNat - 65 + 10)
  else none

/-- Whether `c` is a digit of the given base. -/
def is_digit_of (base : Nat) (c : Char) : Bool :=
  match digit_value c with
  | some d => decide (d < base)
  | none => false

/-- The longest run of digits of the base: its value and the rest. -/
def strtol_digits (base : Nat) : List Char → Nat → Nat × List Char
  | [], acc => (acc, [])
  | c :: cs, acc =>
    match digit_value c with
    | some d => if d < base then strtol_digits base cs (acc * base + d) else (acc, c :: cs)
    | none => (acc, c :: cs)

/-- C library `strtol(s, &next, 0)` on a 64-bit `long`: skips white space,
reads a sign, chooses the base from the leading `0x` or `0`, converts the
longest run of digits, saturates at `LONG_MIN`/`LONG_MAX`, and returns the
value with the unread rest; without any digit it returns 0 and the whole
string. -/
def strtol (s : List Char) : Int × List Char :=
  let s1 := s.dropWhile isspace
  let signed : Bool × List Char :=
    match s1 with
    | c :: r => if c = '-' then (true, r) else if c = '+' then (false, r) else (false, s1)
    | [] => (false, s1)
  let based : Nat × List Char :=
    match signed.2 with
    | z :: x :: d :: r =>
      if z = '0' ∧ (x = 'x' ∨ x = 'X') ∧ is_digit_of 16 d = true then (16, d :: r)
      else if z = '0' then (8, signed.2) else (10, signed.2)
    | z :: _ => if z = '0' then (8, signed.2) else (10, signed.2)
    | [] => (10, signed.2)
  match based.2 with
  | c :: _ =>
    if is_digit_of based.1 c = true then
      let r := strtol_digits based.1 based.2 0
      let v : Int := if signed.1 then -(r.1 : Int) else (r.1 : Int)
      (max (-(2 : Int) ^ 63) (min v ((2 : Int) ^ 63 - 1)), r.2)
    else (0, s)
  | [] => (0, s)

/-- Conversion of a `long` to `int` on assignment: reduction modulo 2^32 into
the signed range. -/
def long_to_int (v : Int) : Int :=
  (v + 2 ^ 31) % 2 ^ 32 - 2 ^ 31

/-- The `case 's'` block (lines 313-322); `errx(1, ...)` ends the program with
status 1. -/
def main_case_s (g : globals) (optarg : List Char) : Except Nat globals :=
  let r := strtol optarg
  let g1 := { g with filter_min_success := long_to_int r.1 }
  match r.2 with
  | c :: rest =>
    if c = ':' then
      let r2 := strtol rest
      let g2 := { g1 with filter_max_success := long_to_int r2.1 }
      match r2.2 with
      | [] => Except.ok g2
      | _ :: _ => Except.error 1
    else Except.error 1
  | [] => Except.ok g1

/-- The `switch (opt)` of `main` (lines 306-337); `return 1` after the usage
text is the error 1. -/
def main_switch (g : globals) (opt : Char) (optarg : List Char) : Except Nat globals :=
  if opt = 't' then Except.ok { g with thread_mode := false }
  else if opt = 'm' then Except.ok { g with mutator_name := some optarg }
  else if opt = 's' then main_case_s g optarg
  else if opt = 'n' then Except.ok { g with filter_ndecoded_same := true }
  else Except.error 1

/-- The `while ((opt = getopt(...)) != -1)` loop over the values that `getopt`
returns, each with its `optarg`. -/
def main_getopt_loop (g : globals) : List (Char × List Char) → Except Nat globals
  | [] => Except.ok g
  | (opt, optarg) :: rest =>
    match main_switch g opt optarg with
    | Except.ok g1 => main_getopt_loop g1 rest
    | Except.error e => Except.error e

/-- C library `getopt` with the option string `"htm:s:n"`, for one argument
that starts with a dash: the values returned for its characters, and whether
the next argument was taken as `optarg`. -/
def getopt_cluster (next : Option (List Char)) : List Char → List (Char × List Char) × Bool
  | [] => ([], false)
  | c :: rest =>
    if c = 'h' ∨ c = 't' ∨ c = 'n' then
      ((c, []) :: (getopt_cluster next rest).1, (getopt_cluster next rest).2)
    else if c = 'm' ∨ c = 's' then
      match rest with
      | [] =>
        match next with
        | some a => ([(c, a)], true)
        | none => ([('?', [])], false)
      | _ :: _ => ([(c, rest)], false)
    else (('?', []) :: (getopt_cluster next rest).1, (getopt_cluster next rest).2)

/-- C library `getopt` with the option string `"htm:s:n"` over `argv[1..]`:
every value it returns before -1.  Arguments that are not options are passed
over, `--` ends the options.  `skip` says that the first argument was already
consumed as an `optarg`. -/
def getopt_all : Bool → List (List Char) → List (Char × List Char)
  | _, [] => []
  | true, _ :: args => getopt_all false args
  | false, arg :: args =>
    match arg with
    | d :: c :: rest =>
      if d = '-' then
        if c = '-' ∧ rest = [] then []
        else
          (getopt_cluster args.head? (c :: rest)).1
            ++ getopt_all (getopt_cluster args.head? (c :: rest)).2 args
      else getopt_all false args
    | _ => getopt_all false args

/-- Option parsing of `main` (lines 302-338) on a command line `argv`. -/
def main_parse (K : mish_common) (argv : List (List Char)) : Except Nat globals :=
  main_getopt_loop (globals_init K) (getopt_all false argv.tail)

/-- Lines 397-402 of `main`: negative bounds are rebased once `nworkers` is
known.  The sum of a negative `int` and `nworkers + 1` cannot overflow. -/
def main_resolve_filter (g : globals) (nworkers : Nat) : globals :=
  let g1 := if g.filter_min_success < 0
    then { g with filter_min_success := g.filter_min_success + ((nworkers : Int) + 1) }
    else g
  if g1.filter_max_success < 0
    then { g1 with filter_max_success := g1.filter_max_success + ((nworkers : Int) + 1) }
    else g1

/-- The call `process(idx, i, input_chunks, nworkers, workers)` of line 429
under the filter variables `g`. -/
def process_with (K : mish_common) (g : globals) (slot idx : Nat)
    (input_chunks : Nat → input_chunk) (nworkers : Nat) (workers : Nat → worker_config) :
    List UInt8 :=
  process K g.filter_min_success g.filter_max_success g.filter_ndecoded_same
    slot idx input_chunks nworkers workers

/-- A command line given as strings. -/
def argv_of (args : List String) : List (List Char) :=
  args.map String.toList

/-- Three workers whose outputs are SUCCESS, SUCCESS and FAILURE. -/
def example_workers3 : Nat → worker_config
  | 0 => example_worker [97] (example_output decode_status.S_SUCCESS 2 [])
  | 1 => example_worker [98] (example_output decode_status.S_SUCCESS 2 [])
  | _ => example_worker [99] (example_output decode_status.S_FAILURE 0 [])

/-! ## Worker loop (`worker`, lines 129-165) and crash monitor
(`sigchld_handler`, lines 262-299) -/

/-- The memory shared by the dispatcher, the crash monitor and the workers: the
input ring and the static array `workers`. -/
structure mish_state where
  input_chunks : Nat → input_chunk
  workers : Nat → worker_config

/-- Line 153: the worker's end-of-chunk `mish_atomic_fetch_add(..., -1)` on the
chunk's `remaining_workers`. -/
def worker_finish_chunk (ic : input_chunk) : input_chunk :=
  { ic with remaining_workers := (mish_atomic_fetch_add ic.remaining_workers MINUS_ONE).1 }

/-- Source `worker_for_pid`. -/
def worker_for_pid (K : mish_common) (workers : Nat → worker_config) (pid : Nat) :
    Option Nat :=
  (List.range K.MISHEGOS_MAX_NWORKERS).find? (fun i => decide ((workers i).pid = pid))

/-- The first chunk of the ring whose `remaining` is not zero (the loop at
lines 277-280). -/
def sigchld_find_chunk (oc : Nat → output_chunk) : Option Nat :=
  (List.range MISHEGOS_NUM_CHUNKS).find? (fun widx => decide ((oc widx).remaining ≠ 0))

/-- Lines 275-294 of `sigchld_handler`, for one reaped child that is worker
`workerno`. -/
def sigchld_handler_child (s : mish_state) (workerno : Nat) : mish_state :=
  let ic := s.input_chunks
  let oc := (s.workers workerno).output_chunks
  match sigchld_find_chunk oc with
  | none => s
  | some widx =>
    let remaining := (oc widx).remaining
    let pos := ((ic widx).input_count + (UINT32_MOD - remaining % UINT32_MOD)) % UINT32_MOD
    let crashed : output_slot := { (oc widx).outputs pos with status := decode_status.S_CRASH }
    let oc1 := Function.update oc widx
      { oc widx with outputs := Function.update (oc widx).outputs pos crashed }
    let w1 : worker_config :=
      { s.workers workerno with
        output_chunks := oc1
        start_gen := (ic widx).generation
        start_idx := widx
        sigchld := true }
    { input_chunks := Function.update ic widx
        { ic widx with
          remaining_workers := (mish_atomic_fetch_add (ic widx).remaining_workers MINUS_ONE).1 }
      workers := Function.update s.workers workerno w1 }

/-- Source `sigchld_handler` over the pids that `waitpid` reaps in one
invocation; `none` is the `abort()` of line 273. -/
def sigchld_handler (K : mish_common) (s : mish_state) : List Nat → Option mish_state
  | [] => some s
  | wpid :: rest =>
    match worker_for_pid K s.workers wpid with
    | none => none
    | some workerno => sigchld_handler K (sigchld_handler_child s workerno) rest

/-- The expression `input_chunks[workers[i].start_idx].remaining_workers` after
the restart sweep's `mish_atomic_fetch_add(..., 1)` and `sigchld = false` for
worker `i` (lines 413-419). -/
def restart_worker (s : mish_state) (i : Nat) : mish_state :=
  if (s.workers i).sigchld then
    let c := (s.workers i).start_idx
    { input_chunks := Function.update s.input_chunks c
        { s.input_chunks c with
          remaining_workers := (mish_atomic_fetch_add (s.input_chunks c).remaining_workers 1).1 }
      workers := Function.update s.workers i { s.workers i with sigchld := false } }
  else s

/-- Whether the restart sweep (lines 412-420) restarts some worker. -/
def worker_restarted (s : mish_state) (nworkers : Nat) : Bool :=
  (List.range nworkers).any (fun i => (s.workers i).sigchld)

/-- The restart sweep (lines 412-420) over all workers. -/
def restart_sweep (s : mish_state) (nworkers : Nat) : mish_state :=
  (List.range nworkers).foldl restart_worker s

/-- Lines 450-452 of `main`: publication of a chunk with `count` inputs in
generation `gen`; the three stores narrow to 32 bits. -/
def main_publish (ic : input_chunk) (count nworkers gen : Nat) : input_chunk :=
  { ic with
    input_count := count % UINT32_MOD
    remaining_workers := nworkers % UINT32_MOD
    generation := gen % UINT32_MOD }

/-- Where a worker stands with respect to the current publication of the
chunk: it still owes its end-of-chunk decrement, it has made it, or it died
inside the chunk and has not been restarted. -/
inductive worker_phase where
  | pending
  | finished
  | crashed
deriving DecidableEq, Repr

/-- The shared memory together with the phase of every worker. -/
structure chunk_run_state where
  shared : mish_state
  phase : Nat → worker_phase

/-- The steps that touch one chunk: the dispatcher's publication, a worker's
store to its `remaining` cursor (lines 142 and 150), a worker's end-of-chunk
decrement (line 153), the crash handler run for a worker that died inside the
chunk, and the restart sweep reaching a flagged worker. -/
inductive chunk_event where
  | publish (count gen : Nat)
  | worker_store (w r : Nat)
  | worker_done (w : Nat)
  | child_died (w : Nat)
  | restart (w : Nat)
deriving DecidableEq, Repr

/-- A worker's store of `r` to `output_chunks[idx].remaining`. -/
def store_remaining (s : mish_state) (w idx r : Nat) : mish_state :=
  let oc : output_chunk :=
    { (s.workers w).output_chunks idx with remaining := r % UINT32_MOD }
  let wc : worker_config :=
    { s.workers w with output_chunks := Function.update (s.workers w).output_chunks idx oc }
  { s with workers := Function.update s.workers w wc }

/-- One step on chunk `idx`.  The dispatcher publishes only after its wait saw
`remaining_workers == 0` and the sweep found no flagged worker (lines 408-425);
a worker decrements once per publication, after its decode loop has stored
`remaining = 0`; the handler acts on this chunk when it is the one its scan
finds; the sweep restarts a worker whose `sigchld` flag is set. -/
def chunk_step (nworkers idx : Nat) (s : chunk_run_state) : chunk_event → Option chunk_run_state
  | .publish count gen =>
    if (s.shared.input_chunks idx).remaining_workers = 0
        ∧ worker_restarted s.shared nworkers = false then
      some { shared := { s.shared with
               input_chunks := Function.update s.shared.input_chunks idx
                 (main_publish (s.shared.input_chunks idx) count nworkers gen) }
             phase := fun _ => worker_phase.pending }
    else none
  | .worker_store w r =>
    if w < nworkers ∧ s.phase w = worker_phase.pending then
      some { s with shared := store_remaining s.shared w idx r }
    else none
  | .worker_done w =>
    if w < nworkers ∧ s.phase w = worker_phase.pending
        ∧ ((s.shared.workers w).output_chunks idx).remaining = 0 then
      some { shared := { s.shared with
               input_chunks := Function.update s.shared.input_chunks idx
                 (worker_finish_chunk (s.shared.input_chunks idx)) }
             phase := Function.update s.phase w worker_phase.finished }
    else none
  | .child_died w =>
    if w < nworkers ∧ s.phase w = worker_phase.pending
        ∧ sigchld_find_chunk (s.shared.workers w).output_chunks = some idx then
      some { shared := sigchld_handler_child s.shared w
             phase := Function.update s.phase w worker_phase.crashed }
    else none
  | .restart w =>
    if w < nworkers ∧ (s.shared.workers w).sigchld = true then
      some { shared := restart_worker s.shared w
             phase := Function.update s.phase w worker_phase.pending }
    else none

/-- A run: the steps are taken in order, `none` when one is not enabled. -/
def chunk_run (nworkers idx : Nat) : chunk_run_state → List chunk_event → Option chunk_run_state
  | s, [] => some s
  | s, e :: rest =>
    match chunk_step nworkers idx s e with
    | some s1 => chunk_run nworkers idx s1 rest
    | none => none

/-- The zero-filled shared mappings right after `alloc_shared`, with every
worker at its initial cursor. -/
def mish_state_init : mish_state :=
  { input_chunks := fun _ =>
      { generation := 0, remaining_workers := 0, input_count := 0,
        inputs := fun _ => { len := 0, raw_insn := [] } }
    workers := fun j =>
      { soname_len := 0
        soname := fun _ => 0
        workerno := j
        output_chunks := fun _ =>
          { remaining := 0,
            outputs := fun _ =>
              { status := decode_status.S_NONE, ndecoded := 0, len := 0, result := [] },
            beyond := fun _ => 0 }
        start_gen := 1
        start_idx := 0
        sigchld := false
        pid := j + 1 } }

/-- Before the first publication no worker owes anything. -/
def chunk_run_init : chunk_run_state :=
  { shared := mish_state_init, phase := fun _ => worker_phase.finished }

/-- The word `input_chunks[idx].remaining_workers`. -/
def chunk_run_state.rw (s : chunk_run_state) (idx : Nat) : Nat :=
  (s.shared.input_chunks idx).remaining_workers

/-- Whether an event is a publication. -/
def chunk_event.is_publish : chunk_event → Bool
  | .publish _ _ => true
  | _ => false

/-- Whether an event is the restart sweep's increment. -/
def chunk_event.is_restart : chunk_event → Bool
  | .restart _ => true
  | _ => false

/-- Number of workers below `n` that still owe their decrement. -/
def pending_count (phase : Nat → worker_phase) : Nat → Nat
  | 0 => 0
  | n + 1 => pending_count phase n + (if phase n = worker_phase.pending then 1 else 0)

/-- Invariant of the step relation: `remaining_workers` counts the pending
workers, the `sigchld` flag marks the crashed ones, and a flagged worker's
start cursor points at this chunk. -/
def chunk_inv (nworkers idx : Nat) (s : chunk_run_state) : Prop :=
  s.rw idx = pending_count s.phase nworkers
  ∧ (∀ w, w < nworkers →
      ((s.shared.workers w).sigchld = true ↔ s.phase w = worker_phase.crashed))
  ∧ (∀ w, w < nworkers → (s.shared.workers w).sigchld = true →
      (s.shared.workers w).start_idx = idx)

/-- Spec wording: after publication `remaining_workers` never increases until
it reaches 0 and then stays 0 until the next publication, that is, no step
other than a publication ever raises it. -/
def spec_never_increases (nworkers idx : Nat) : Prop :=
  ∀ (evs : List chunk_event) (s s1 : chunk_run_state) (e : chunk_event),
    chunk_run nworkers idx chunk_run_init evs = some s →
    chunk_step nworkers idx s e = some s1 →
    e.is_publish = false → s1.rw idx ≤ s.rw idx

/-- The value of `remaining_workers` after a run, when the run is possible. -/
def rw_after (nworkers idx : Nat) (evs : List chunk_event) : Option Nat :=
  (chunk_run nworkers idx chunk_run_init evs).map (fun s => s.rw idx)

/-- A run in which the only worker of chunk 0 dies in slot 2 of 5: the chunk
is published, the worker stores `remaining = 3`, the handler runs. -/
def example_crash_run : List chunk_event :=
  [chunk_event.publish 5 1, chunk_event.worker_store 0 3, chunk_event.child_died 0]

/-- The state that `example_crash_run` reaches with `n` workers. -/
def example_crashed (n : Nat) : chunk_run_state :=
  (chunk_run n 0 chunk_run_init example_crash_run).getD chunk_run_init

/-- The state after the restart sweep has then reached worker 0. -/
def example_restarted (n : Nat) : chunk_run_state :=
  (chunk_step n 0 (example_crashed n) (chunk_event.restart 0)).getD chunk_run_init

/-! ## Dispatcher loop (`main`, lines 405-461) -/

/-- The two ring constants `MISHEGOS_NUM_CHUNKS` and
`MISHEGOS_NUM_SLOTS_PER_CHUNK`. -/
structure ring_dims where
  num_chunks : Nat
  slots_per_chunk : Nat
deriving DecidableEq, Repr

/-- The values the source gives to the ring constants. -/
def mishegos_dims : ring_dims :=
  { num_chunks := MISHEGOS_NUM_CHUNKS, slots_per_chunk := MISHEGOS_NUM_SLOTS_PER_CHUNK }

/-- The locals `idx` and `gen` of `main` are `uint64_t`. -/
def UINT64_MOD : Nat := 2 ^ 64

/-- State of the dispatcher loop: the locals `idx`, `gen`, `exit_idx`, the
shared memory, the inputs the mutator has yet to yield, and two logs: every
call `process(idx, i, ...)` with the input slot it reads, and every
publication as (idx, gen, input_count). -/
structure main_state where
  idx : Nat
  gen : Nat
  exit_idx : Nat
  shared : mish_state
  mutator : List input_slot
  calls : List (Nat × Nat × input_slot)
  published : List (Nat × Nat × Nat)

/-- Result of the fill loop: the slots, `count`, the mutator's remaining
inputs, and whether the mutator returned false. -/
structure fill_result where
  inputs : Nat → input_slot
  count : Nat
  mutator : List input_slot
  exhausted : Bool

/-- The loop at lines 440-448, with `n` iterations left, loop variable `i`
and counter `count`: each call of the mutator either fills `inputs[i]` or
returns false, which ends the loop. -/
def main_fill (inputs : Nat → input_slot) :
    Nat → Nat → Nat → List input_slot → fill_result
  | 0, _, count, mutator =>
    { inputs := inputs, count := count, mutator := mutator, exhausted := false }
  | _ + 1, _, count, [] =>
    { inputs := inputs, count := count, mutator := [], exhausted := true }
  | n + 1, i, count, x :: rest =>
    main_fill (Function.update inputs i x) n (i + 1) (count + 1) rest

/-- The sequential model of the workers: each of the `nworkers` workers
finishes the chunk and makes its end-of-chunk decrement (line 153). -/
def workers_complete (nworkers : Nat) (ic : input_chunk) : input_chunk :=
  (List.range nworkers).foldl (fun c _ => worker_finish_chunk c) ic

/-- Step 3 of the loop (lines 427-431): the calls of `process` for the
current chunk. -/
def main_consume (s : main_state) : main_state :=
  if s.gen > 1 then
    let ic := s.shared.input_chunks s.idx
    let made := (List.range ic.input_count).map (fun i => (s.idx, i, ic.inputs i))
    { s with calls := s.calls ++ made }
  else s

/-- Step 5 of the loop (lines 438-454): fill the chunk from the mutator,
publish it, and let the workers complete it. -/
def main_produce (D : ring_dims) (nworkers : Nat) (s : main_state) : main_state :=
  if s.exit_idx = D.num_chunks then
    let ic := s.shared.input_chunks s.idx
    let r := main_fill ic.inputs D.slots_per_chunk 0 0 s.mutator
    let ic1 := main_publish { ic with inputs := r.inputs } r.count nworkers s.gen
    let ring := Function.update s.shared.input_chunks s.idx (workers_complete nworkers ic1)
    { s with
      exit_idx := if r.exhausted then s.idx else s.exit_idx
      mutator := r.mutator
      shared := { s.shared with input_chunks := ring }
      published := s.published ++ [(s.idx, s.gen, ic1.input_count)] }
  else s

/-- Step 6 of the loop (lines 456-460). -/
def main_advance (D : ring_dims) (s : main_state) : main_state :=
  if s.idx + 1 = D.num_chunks then { s with idx := 0, gen := (s.gen + 1) % UINT64_MOD }
  else { s with idx := s.idx + 1 }

/-- Outcome of one pass through the body of `while (true)` in `main`. -/
inductive main_outcome where
  | next (s : main_state)
  | finished (s : main_state)
  | parked (s : main_state)

/-- One pass through the body of `while (true)` in `main` (lines 408-460).
The wait of line 408 returns only when `remaining_workers` is 0; in the
sequential model nobody else runs while the dispatcher waits. -/
def main_iteration (D : ring_dims) (thread_mode : Bool) (nworkers : Nat) (s : main_state) :
    main_outcome :=
  if (s.shared.input_chunks s.idx).remaining_workers ≠ 0 then main_outcome.parked s
  else if !thread_mode && worker_restarted s.shared nworkers then
    main_outcome.next { s with shared := restart_sweep s.shared nworkers }
  else
    let s1 := main_consume s
    if s1.idx = s1.exit_idx then main_outcome.finished s1
    else main_outcome.next (main_advance D (main_produce D nworkers s1))

/-- The dispatcher loop run for at most `fuel` passes: the state at `break`. -/
def main_loop (D : ring_dims) (thread_mode : Bool) (nworkers : Nat) :
    Nat → main_state → Option main_state
  | 0, _ => none
  | fuel + 1, s =>
    match main_iteration D thread_mode nworkers s with
    | main_outcome.next s1 => main_loop D thread_mode nworkers fuel s1
    | main_outcome.finished s1 => some s1
    | main_outcome.parked _ => none

/-- The locals of `main` at line 407 over zero-filled shared memory, with a
mutator that will yield the inputs `ins` and then return false. -/
def main_init (D : ring_dims) (ins : List input_slot) : main_state :=
  { idx := 0
    gen := 1
    exit_idx := D.num_chunks
    shared := mish_state_init
    mutator := ins
    calls := []
    published := [] }

/-- The zero-filled input slot. -/
def zero_slot : input_slot :=
  { len := 0, raw_insn := [] }

/-- Spec wording: the `input_count` of the publication number `t` when the
mutator yields `m` inputs: `S` for each full chunk, `m mod S` for the last. -/
def spec_chunk_count (D : ring_dims) (m t : Nat) : Nat :=
  if t < m / D.slots_per_chunk then D.slots_per_chunk else m % D.slots_per_chunk

/-- Spec wording: the publications, in order, as (idx, gen, input_count). -/
def spec_published (D : ring_dims) (m n : Nat) : List (Nat × Nat × Nat) :=
  (List.range n).map (fun t => (t % D.num_chunks, 1 + t / D.num_chunks, spec_chunk_count D m t))

/-- Spec wording: the filter/emit step is called once for each of the first
`n` produced inputs, in production order; input number `k` sits in chunk
`(k / S) mod C`, slot `k mod S`. -/
def spec_calls (D : ring_dims) (ins : List input_slot) (n : Nat) :
    List (Nat × Nat × input_slot) :=
  (List.range n).map (fun k =>
    (k / D.slots_per_chunk % D.num_chunks, k % D.slots_per_chunk, ins.getD k zero_slot))

/-- An input slot that carries the single byte `b`. -/
def example_input (b : Nat) : input_slot :=
  { len := 1, raw_insn := [UInt8.ofNat b] }

/-- The state `s` with its log of `process` calls replaced. -/
def main_state.with_calls (s : main_state) (calls : List (Nat × Nat × input_slot)) :
    main_state :=
  { s with calls := calls }

/-- Number of inputs whose `process` call precedes pass `t` of the loop. -/
def spec_processed (D : ring_dims) (m t : Nat) : Nat :=
  min m ((t - D.num_chunks) * D.slots_per_chunk)

/-- Loop invariant of the dispatcher at the start of pass number `t`, for a
mutator that yields `ins`: the cursor, the exit marker and the mutator, the
quiescence of every chunk, the contents of the chunks published during the
last lap, and the two logs. -/
def main_inv (D : ring_dims) (ins : List input_slot) (t : Nat) (s : main_state) : Prop :=
  s.idx = t % D.num_chunks
  ∧ s.gen = 1 + t / D.num_chunks
  ∧ (t ≤ ins.length / D.slots_per_chunk →
      s.exit_idx = D.num_chunks ∧ s.mutator = ins.drop (t * D.slots_per_chunk))
  ∧ (ins.length / D.slots_per_chunk < t →
      s.exit_idx = (ins.length / D.slots_per_chunk) % D.num_chunks ∧ s.mutator = [])
  ∧ (∀ j, (s.shared.input_chunks j).remaining_workers = 0)
  ∧ (∀ w, (s.shared.workers w).sigchld = false)
  ∧ (∀ u, u < t → u ≤ ins.length / D.slots_per_chunk → t ≤ u + D.num_chunks →
      (s.shared.input_chunks (u % D.num_chunks)).input_count = spec_chunk_count D ins.length u
      ∧ ∀ i, i < spec_chunk_count D ins.length u →
          (s.shared.input_chunks (u % D.num_chunks)).inputs i
            = ins.getD (u * D.slots_per_chunk + i) zero_slot)
  ∧ s.calls = spec_calls D ins (spec_processed D ins.length t)
  ∧ s.published = spec_published D ins.length (min t (ins.length / D.slots_per_chunk + 1))


/-! # Theorems -/

/-! ## Filter: the scan computes the specified quantities -/

theorem process_scan_eq_foldl (slot idx nworkers : Nat) (workers : Nat → worker_config) :
    process_scan slot idx nworkers workers
      = (outputs_of workers slot idx nworkers).foldl process_iter process_locals_init := by
  unfold process_scan outputs_of
  rw [List.foldl_map]

theorem scan_inv_init : scan_inv process_locals_init [] := by
  refine ⟨by simp [process_locals_init, spec_num_success], ?_, ?_⟩
  · intro _; simp [process_locals_init]
  · intro h; simp [process_locals_init] at h

theorem scan_inv_iter (v : process_locals) (pre : List output_slot) (o : output_slot)
    (h : scan_inv v pre) : scan_inv (process_iter v o) (pre ++ [o]) := by
  obtain ⟨hn, hA, hB⟩ := h
  by_cases hs : o.status = decode_status.S_SUCCESS
  · by_cases hl : v.last_ndecoded = -1
    · obtain ⟨hsame, hno⟩ := hA hl
      have hne : ((o.ndecoded : Int)) ≠ -1 := by omega
      refine ⟨?_, ?_, ?_⟩
      · simp [process_iter, hs, hl, spec_num_success, List.countP_append, hn]
      · intro h1; simp [process_iter, hs, hl] at h1
      · intro _
        refine ⟨⟨o, by simp, hs, by simp [process_iter, hs, hl]⟩, ?_⟩
        simp only [process_iter, hs, hl, if_true, hsame, true_iff]
        intro a ha hsa
        rcases List.mem_append.1 ha with ha | ha
        · exact absurd hsa (hno a ha)
        · simp at ha; subst ha; rfl
    · obtain ⟨⟨w, hw, hws, hwl⟩, hiff⟩ := hB hl
      by_cases hd : v.last_ndecoded = (o.ndecoded : Int)
      · refine ⟨?_, ?_, ?_⟩
        · simp [process_iter, hs, hl, hd, spec_num_success, List.countP_append, hn]
        · intro h1; simp [process_iter, hs, hl, hd] at h1
        · intro _
          have e : process_iter v o = { v with num_success := v.num_success + 1 } := by
            simp [process_iter, hs, hl, hd]
          rw [e]
          refine ⟨⟨w, by simp [hw], hws, hwl⟩, ?_⟩
          simp only [hiff]
          constructor
          · intro hall a ha hsa
            rcases List.mem_append.1 ha with ha | ha
            · exact hall a ha hsa
            · simp at ha; subst ha; exact hd.symm
          · intro hall a ha hsa
            exact hall a (by simp [ha]) hsa
      · have e : process_iter v o
            = { v with num_success := v.num_success + 1, ndecoded_same := false } := by
          simp [process_iter, hs, hl, hd]
        rw [e]
        refine ⟨?_, ?_, ?_⟩
        · simp [spec_num_success, List.countP_append, hs, hn]
        · intro h1; exact absurd h1 hl
        · intro _
          refine ⟨⟨w, by simp [hw], hws, hwl⟩, ?_⟩
          simp only [Bool.false_eq_true, false_iff]
          intro hall
          exact hd (hall o (by simp) hs).symm
  · have e : process_iter v o = v := by
      simp [process_iter, hs]
    rw [e]
    refine ⟨?_, ?_, ?_⟩
    · simp [spec_num_success, List.countP_append, hs, hn]
    · intro h1
      obtain ⟨hsame, hno⟩ := hA h1
      refine ⟨hsame, ?_⟩
      intro a ha
      rcases List.mem_append.1 ha with ha | ha
      · exact hno a ha
      · simp at ha; subst ha; exact hs
    · intro h1
      obtain ⟨⟨w, hw, hws, hwl⟩, hiff⟩ := hB h1
      refine ⟨⟨w, by simp [hw], hws, hwl⟩, ?_⟩
      rw [hiff]
      constructor
      · intro hall a ha hsa
        rcases List.mem_append.1 ha with ha | ha
        · exact hall a ha hsa
        · simp at ha; subst ha; exact absurd hsa hs
      · intro hall a ha hsa
        exact hall a (by simp [ha]) hsa

theorem scan_inv_foldl (outs : List output_slot) :
    ∀ (pre : List output_slot) (v : process_locals), scan_inv v pre →
      scan_inv (outs.foldl process_iter v) (pre ++ outs) := by
  induction outs with
  | nil => intro pre v h; simpa using h
  | cons o rest ih =>
    intro pre v h
    have := ih (pre ++ [o]) (process_iter v o) (scan_inv_iter v pre o h)
    simpa using this

theorem process_scan_inv (slot idx nworkers : Nat) (workers : Nat → worker_config) :
    scan_inv (process_scan slot idx nworkers workers) (outputs_of workers slot idx nworkers) := by
  rw [process_scan_eq_foldl]
  simpa using scan_inv_foldl (outputs_of workers slot idx nworkers) [] _ scan_inv_init

theorem process_scan_num_success (slot idx nworkers : Nat) (workers : Nat → worker_config) :
    (process_scan slot idx nworkers workers).num_success
      = (spec_num_success (outputs_of workers slot idx nworkers) : Int) :=
  (process_scan_inv slot idx nworkers workers).1

theorem process_scan_ndecoded_same (slot idx nworkers : Nat) (workers : Nat → worker_config) :
    (process_scan slot idx nworkers workers).ndecoded_same = true
      ↔ spec_ndecoded_same (outputs_of workers slot idx nworkers) := by
  obtain ⟨_, hA, hB⟩ := process_scan_inv slot idx nworkers workers
  by_cases hl : (process_scan slot idx nworkers workers).last_ndecoded = -1
  · obtain ⟨hsame, hno⟩ := hA hl
    simp only [hsame, true_iff]
    intro a ha b _ hsa _
    exact absurd hsa (hno a ha)
  · obtain ⟨⟨w, hw, hws, hwl⟩, hiff⟩ := hB hl
    rw [hiff]
    constructor
    · intro hall a ha b hb hsa hsb
      have h1 := hall a ha hsa
      have h2 := hall b hb hsb
      omega
    · intro hspec a ha hsa
      have := hspec a ha w hw hsa hws
      omega


/-! ## Emission format -/

theorem le_bytes_length (w x : Nat) : (le_bytes w x).length = w := by
  induction w generalizing x with
  | zero => rfl
  | succ n ih => simp [le_bytes, ih]

theorem result_image_length (K : mish_common) (o : output_slot) :
    (result_image K o).length = K.MISHEGOS_DEC_MAXLEN := by
  simp [result_image]

theorem output_slot_image_length (K : mish_common) (o : output_slot) :
    (output_slot_image K o).length = K.offsetof_result + K.MISHEGOS_DEC_MAXLEN := by
  simp [output_slot_image, K.header_image_length, result_image_length]

theorem fwrite_outputs_length (K : mish_common) (oc : output_chunk) (idx n : Nat) :
    (fwrite_outputs K oc idx n).length = n := by
  unfold fwrite_outputs
  rw [List.length_take]
  simp only [List.length_append, List.length_map, List.length_range]
  omega

theorem fwrite_outputs_in_slot (K : mish_common) (oc : output_chunk) (idx n : Nat)
    (h : n ≤ K.offsetof_result + K.MISHEGOS_DEC_MAXLEN) :
    fwrite_outputs K oc idx n = (output_slot_image K (oc.outputs idx)).take n := by
  unfold fwrite_outputs
  exact List.take_append_of_le_length (by rw [output_slot_image_length]; exact h)

theorem take_header_append (K : mish_common) (o : output_slot) (n : Nat) (rest : List UInt8) :
    (K.header_image o ++ rest).take (K.offsetof_result + n)
      = K.header_image o ++ rest.take n := by
  rw [List.take_append_eq_append_take, K.header_image_length,
    List.take_of_length_le (by rw [K.header_image_length]; omega), Nat.add_sub_cancel_left]

theorem fwrite_outputs_split (K : mish_common) (oc : output_chunk) (idx n : Nat) :
    fwrite_outputs K oc idx (K.offsetof_result + n)
      = K.header_image (oc.outputs idx) ++ result_bytes K oc idx n := by
  unfold result_bytes fwrite_outputs output_slot_image
  rw [List.append_assoc, take_header_append, List.drop_append_eq_append_drop,
    K.header_image_length, List.drop_of_length_le (by rw [K.header_image_length]),
    Nat.sub_self, List.drop_zero, List.nil_append]

theorem result_bytes_length (K : mish_common) (oc : output_chunk) (idx n : Nat) :
    (result_bytes K oc idx n).length = n := by
  unfold result_bytes
  rw [List.length_drop, fwrite_outputs_length]
  omega

theorem result_bytes_in_buffer (K : mish_common) (oc : output_chunk) (idx n : Nat)
    (h : n ≤ K.MISHEGOS_DEC_MAXLEN) :
    result_bytes K oc idx n = (result_image K (oc.outputs idx)).take n := by
  unfold result_bytes
  rw [fwrite_outputs_in_slot K oc idx _ (by omega)]
  unfold output_slot_image
  rw [take_header_append, List.drop_append_eq_append_drop, K.header_image_length,
    List.drop_of_length_le (by rw [K.header_image_length]), Nat.sub_self, List.drop_zero,
    List.nil_append]

theorem process_emit_worker_eq (K : mish_common) (slot idx : Nat) (w : worker_config)
    (h : ((w.output_chunks slot).outputs idx).len ≤ K.MISHEGOS_DEC_MAXLEN) :
    process_emit_worker K slot idx w = spec_blob K slot idx w := by
  unfold process_emit_worker spec_blob fwrite_soname
  rw [fwrite_outputs_split, result_bytes_in_buffer K _ idx _ h]

theorem le_value_le_bytes (w x : Nat) : le_value (le_bytes w x) = x % 256 ^ w := by
  induction w generalizing x with
  | zero => simp [le_bytes, le_value, Nat.mod_one]
  | succ n ih =>
    simp only [le_bytes, le_value, ih]
    have h : (UInt8.ofNat (x % 256)).toNat = x % 256 := by
      simp [UInt8.ofNat, UInt8.toNat, Fin.ofNat]
    rw [h, pow_succ, Nat.mul_comm (256 ^ n) 256, Nat.mod_mul]

theorem process_emit_eq_spec (K : mish_common) (slot idx : Nat)
    (input_chunks : Nat → input_chunk) (nworkers : Nat) (workers : Nat → worker_config)
    (hlen : ∀ j, j < nworkers → (output_at workers slot idx j).len ≤ K.MISHEGOS_DEC_MAXLEN) :
    process_emit K slot idx input_chunks nworkers workers
      = spec_record K slot idx input_chunks nworkers workers := by
  unfold process_emit spec_record
  congr 2
  apply List.map_congr_left
  intro j hj
  exact process_emit_worker_eq K slot idx (workers j) (hlen j (List.mem_range.1 hj))

/-- Claim C6 (amended): for every retained sample in which every output's
`len` is at most `MISHEGOS_DEC_MAXLEN`, the bytes `process` appends are the
worker count as a 4-byte integer, the fixed-width input slot and then, for each
worker in worker order, the word-sized name length, that many name bytes, the
output header and the first `len` bytes of the result buffer
(`sizeof(output_slot) - MISHEGOS_DEC_MAXLEN + len` bytes of the slot); there
are exactly N blobs and the embedded count is N. -/
theorem C6_process_record_format (K : mish_common)
    (filter_min_success filter_max_success : Int) (filter_ndecoded_same : Bool)
    (slot idx : Nat) (input_chunks : Nat → input_chunk) (nworkers : Nat)
    (workers : Nat → worker_config)
    (hkeep : process_keep filter_min_success filter_max_success filter_ndecoded_same
      slot idx nworkers workers = true)
    (hlen : ∀ j, j < nworkers → (output_at workers slot idx j).len ≤ K.MISHEGOS_DEC_MAXLEN) :
    process K filter_min_success filter_max_success filter_ndecoded_same
        slot idx input_chunks nworkers workers
      = le_bytes 4 nworkers ++ K.input_image ((input_chunks slot).inputs idx) ++
          ((List.range nworkers).map (fun j =>
            le_bytes K.sizeof_size_t (workers j).soname_len
              ++ (List.range (workers j).soname_len).map (workers j).soname
              ++ (K.header_image (output_at workers slot idx j)
                ++ (result_image K (output_at workers slot idx j)).take
                    (output_at workers slot idx j).len))).flatten
    ∧ (le_bytes 4 nworkers).length = 4
    ∧ (nworkers < 2 ^ 32 → le_value (le_bytes 4 nworkers) = nworkers)
    ∧ (K.input_image ((input_chunks slot).inputs idx)).length = K.sizeof_input_slot
    ∧ ((List.range nworkers).map (fun j => spec_blob K slot idx (workers j))).length = nworkers
    ∧ ∀ j, j < nworkers →
        (le_bytes K.sizeof_size_t (workers j).soname_len).length = K.sizeof_size_t
        ∧ ((List.range (workers j).soname_len).map (workers j).soname).length
            = (workers j).soname_len
        ∧ (K.header_image (output_at workers slot idx j)).length = K.offsetof_result
        ∧ ((result_image K (output_at workers slot idx j)).take
              (output_at workers slot idx j).len).length = (output_at workers slot idx j).len
        ∧ (K.header_image (output_at workers slot idx j)
              ++ (result_image K (output_at workers slot idx j)).take
                  (output_at workers slot idx j).len).length
            = (K.offsetof_result + K.MISHEGOS_DEC_MAXLEN) - K.MISHEGOS_DEC_MAXLEN
                + (output_at workers slot idx j).len
        ∧ fwrite_outputs K ((workers j).output_chunks slot) idx
              (K.offsetof_result + (output_at workers slot idx j).len)
            = K.header_image (output_at workers slot idx j)
              ++ (result_image K (output_at workers slot idx j)).take
                  (output_at workers slot idx j).len := by
  refine ⟨?_, le_bytes_length 4 nworkers, ?_, K.input_image_length _, by simp, ?_⟩
  · unfold process
    rw [if_pos hkeep, process_emit_eq_spec K slot idx input_chunks nworkers workers hlen]
    rfl
  · intro h
    rw [le_value_le_bytes]
    exact Nat.mod_eq_of_lt (by simpa using h)
  · intro j hj
    have hl : ((result_image K (output_at workers slot idx j)).take
        (output_at workers slot idx j).len).length = (output_at workers slot idx j).len := by
      rw [List.length_take, result_image_length]
      exact Nat.min_eq_left (hlen j hj)
    refine ⟨le_bytes_length _ _, by simp, K.header_image_length _, hl, ?_, ?_⟩
    · rw [List.length_append, K.header_image_length, hl]
      simp
    · have h1 := fwrite_outputs_split K ((workers j).output_chunks slot) idx
        (output_at workers slot idx j).len
      have h2 := result_bytes_in_buffer K ((workers j).output_chunks slot) idx
        (output_at workers slot idx j).len (hlen j hj)
      rw [h2] at h1
      exact h1

theorem C6_process_record_format_witness :
    process_keep 1 31 false 0 0 2 example_workers = true
    ∧ (∀ j, j < 2 →
        (output_at example_workers 0 0 j).len ≤ example_common.MISHEGOS_DEC_MAXLEN)
    ∧ process example_common 1 31 false 0 0 example_input_chunks 2 example_workers
      = le_bytes 4 2 ++ example_common.input_image ((example_input_chunks 0).inputs 0) ++
          ((List.range 2).map (fun j =>
            le_bytes example_common.sizeof_size_t (example_workers j).soname_len
              ++ (List.range (example_workers j).soname_len).map (example_workers j).soname
              ++ (example_common.header_image (output_at example_workers 0 0 j)
                ++ (result_image example_common (output_at example_workers 0 0 j)).take
                    (output_at example_workers 0 0 j).len))).flatten :=
  ⟨by decide, by decide,
   (C6_process_record_format example_common 1 31 false 0 0 example_input_chunks 2
      example_workers (by decide) (by decide)).1⟩

set_option maxRecDepth 100000 in
/-- Claim C6 (counterexample): a retained sample whose only output reports
`len = 252` with a 248-byte result buffer.  After the header `process` writes
the 248 bytes of the buffer and then four bytes that are the status field of
the next slot of the array, so the record is not the header followed by `len`
bytes of `result`. -/
theorem C6_long_len_reads_next_slot :
    process_keep 1 31 false 0 0 1 (fun _ => example_long_worker) = true
    ∧ (output_at (fun _ => example_long_worker) 0 0 0).len = 252
    ∧ example_common.MISHEGOS_DEC_MAXLEN = 248
    ∧ result_bytes example_common (example_long_worker.output_chunks 0) 0 252
        = List.replicate 248 65 ++ [3, 0, 0, 0]
    ∧ result_image example_common (output_at (fun _ => example_long_worker) 0 0 0)
        = List.replicate 248 65
    ∧ example_common.header_image ((example_long_worker.output_chunks 0).outputs 1)
        = [3, 0, 0, 0, 0, 0, 0, 0]
    ∧ process example_common 1 31 false 0 0 example_input_chunks 1
          (fun _ => example_long_worker)
        ≠ spec_record example_common 0 0 example_input_chunks 1
          (fun _ => example_long_worker) := by
  refine ⟨by decide, by decide, by decide, by decide, by decide, by decide, by decide⟩

/-! ## Filter laws -/

theorem process_emit_ne_nil (K : mish_common) (slot idx : Nat)
    (input_chunks : Nat → input_chunk) (nworkers : Nat) (workers : Nat → worker_config) :
    process_emit K slot idx input_chunks nworkers workers ≠ [] := by
  intro h
  have := congrArg List.length h
  simp [process_emit, le_bytes_length] at this

theorem process_ne_nil_iff (K : mish_common) (filter_min_success filter_max_success : Int)
    (filter_ndecoded_same : Bool) (slot idx : Nat) (input_chunks : Nat → input_chunk)
    (nworkers : Nat) (workers : Nat → worker_config) :
    process K filter_min_success filter_max_success filter_ndecoded_same
        slot idx input_chunks nworkers workers ≠ []
      ↔ process_keep filter_min_success filter_max_success filter_ndecoded_same
          slot idx nworkers workers = true := by
  unfold process
  by_cases h : process_keep filter_min_success filter_max_success filter_ndecoded_same
      slot idx nworkers workers = true
  · simp [h, process_emit_ne_nil]
  · simp [h]

theorem process_keep_iff (filter_min_success filter_max_success : Int)
    (filter_ndecoded_same : Bool) (slot idx nworkers : Nat)
    (workers : Nat → worker_config) :
    process_keep filter_min_success filter_max_success filter_ndecoded_same
        slot idx nworkers workers = true
      ↔ ((filter_min_success ≤ (spec_num_success (outputs_of workers slot idx nworkers) : Int)
            ∧ (spec_num_success (outputs_of workers slot idx nworkers) : Int)
                ≤ filter_max_success)
          ∨ (filter_ndecoded_same = true
              ∧ ¬ spec_ndecoded_same (outputs_of workers slot idx nworkers))) := by
  have hn := process_scan_num_success slot idx nworkers workers
  have hs := process_scan_ndecoded_same slot idx nworkers workers
  unfold process_keep
  simp only [hn, ge_iff_le]
  by_cases hr : filter_min_success ≤ (spec_num_success (outputs_of workers slot idx nworkers) : Int)
            ∧ (spec_num_success (outputs_of workers slot idx nworkers) : Int)
                ≤ filter_max_success
  · simp [hr]
  · simp only [hr, if_false, false_or]
    rw [← hs]
    cases filter_ndecoded_same <;>
      cases (process_scan slot idx nworkers workers).ndecoded_same <;> simp

theorem outputs_of_length (workers : Nat → worker_config) (slot idx nworkers : Nat) :
    (outputs_of workers slot idx nworkers).length = nworkers := by
  simp [outputs_of]

theorem mem_outputs_of (workers : Nat → worker_config) (slot idx nworkers : Nat)
    (o : output_slot) :
    o ∈ outputs_of workers slot idx nworkers
      ↔ ∃ j, j < nworkers ∧ output_at workers slot idx j = o := by
  simp [outputs_of]

theorem spec_num_success_le (outs : List output_slot) : spec_num_success outs ≤ outs.length :=
  List.countP_le_length _

theorem spec_num_success_pos_iff (outs : List output_slot) :
    1 ≤ spec_num_success outs ↔ ∃ o ∈ outs, o.status = decode_status.S_SUCCESS := by
  unfold spec_num_success
  rw [Nat.succ_le_iff, List.countP_pos_iff]
  simp

theorem spec_num_success_lt_iff (outs : List output_slot) :
    spec_num_success outs < outs.length ↔ ∃ o ∈ outs, o.status ≠ decode_status.S_SUCCESS := by
  unfold spec_num_success
  constructor
  · intro h
    by_contra hne
    push_neg at hne
    have : List.countP (fun o => decide (o.status = decode_status.S_SUCCESS)) outs
        = outs.length := by
      rw [List.countP_eq_length]
      intro a ha
      simpa using hne a ha
    omega
  · rintro ⟨o, ho, hs⟩
    apply lt_of_le_of_ne (List.countP_le_length _)
    intro heq
    rw [List.countP_eq_length] at heq
    exact hs (by simpa using heq o ho)

theorem two_le_length_of_mem_ne {α : Type} (l : List α) (a b : α)
    (ha : a ∈ l) (hb : b ∈ l) (hab : a ≠ b) : 2 ≤ l.length := by
  match l, ha, hb with
  | [], ha, _ => simp at ha
  | [x], ha, hb =>
    simp at ha hb
    exact absurd (ha.trans hb.symm) hab
  | _ :: _ :: _, _, _ => simp

theorem two_le_of_not_same (outs : List output_slot) (h : ¬ spec_ndecoded_same outs) :
    2 ≤ spec_num_success outs := by
  unfold spec_ndecoded_same at h
  push_neg at h
  obtain ⟨a, ha, b, hb, hsa, hsb, hne⟩ := h
  unfold spec_num_success
  rw [List.countP_eq_length_filter]
  apply two_le_length_of_mem_ne _ a b
  · simp [List.mem_filter, ha, hsa]
  · simp [List.mem_filter, hb, hsb]
  · intro hab; exact hne (by rw [hab])

/-- Claim C1: for every worker count, every pair of bounds, every value of the
`filter_ndecoded_same` flag and every tuple of output slots, `process` emits a
record exactly when `num_success` lies in `[filter_min_success,
filter_max_success]` or the flag is set and the SUCCESS outputs do not all
report the same `ndecoded`; otherwise it emits nothing. -/
theorem C1_process_emits_iff (K : mish_common) (filter_min_success filter_max_success : Int)
    (filter_ndecoded_same : Bool) (slot idx : Nat) (input_chunks : Nat → input_chunk)
    (nworkers : Nat) (workers : Nat → worker_config) :
    (process K filter_min_success filter_max_success filter_ndecoded_same
        slot idx input_chunks nworkers workers ≠ []
      ↔ ((filter_min_success ≤ (spec_num_success (outputs_of workers slot idx nworkers) : Int)
            ∧ (spec_num_success (outputs_of workers slot idx nworkers) : Int)
                ≤ filter_max_success)
          ∨ (filter_ndecoded_same = true
              ∧ ¬ spec_ndecoded_same (outputs_of workers slot idx nworkers))))
    ∧ (process K filter_min_success filter_max_success filter_ndecoded_same
          slot idx input_chunks nworkers workers ≠ []
        → process K filter_min_success filter_max_success filter_ndecoded_same
            slot idx input_chunks nworkers workers
          = process_emit K slot idx input_chunks nworkers workers) := by
  refine ⟨?_, ?_⟩
  · rw [process_ne_nil_iff, process_keep_iff]
  · intro h
    rw [process_ne_nil_iff] at h
    simp [process, h]

/-- Claim C7: after the workers are enumerated each negative filter bound is
replaced by `N + 1 + value` (so -1 becomes N and -2 becomes N - 1), each
non-negative bound is left unchanged, and the defaults are unchanged. -/
theorem C7_main_resolve_filter (K : mish_common) (g : globals) (nworkers : Nat) :
    (main_resolve_filter g nworkers).filter_min_success
        = (if g.filter_min_success < 0 then (nworkers : Int) + 1 + g.filter_min_success
           else g.filter_min_success)
    ∧ (main_resolve_filter g nworkers).filter_max_success
        = (if g.filter_max_success < 0 then (nworkers : Int) + 1 + g.filter_max_success
           else g.filter_max_success)
    ∧ (g.filter_min_success = -1 →
        (main_resolve_filter g nworkers).filter_min_success = (nworkers : Int))
    ∧ (g.filter_max_success = -1 →
        (main_resolve_filter g nworkers).filter_max_success = (nworkers : Int))
    ∧ (g.filter_min_success = -2 →
        (main_resolve_filter g nworkers).filter_min_success = (nworkers : Int) - 1)
    ∧ (g.filter_max_success = -2 →
        (main_resolve_filter g nworkers).filter_max_success = (nworkers : Int) - 1)
    ∧ (main_resolve_filter g nworkers).thread_mode = g.thread_mode
    ∧ (main_resolve_filter g nworkers).filter_ndecoded_same = g.filter_ndecoded_same
    ∧ (main_resolve_filter g nworkers).mutator_name = g.mutator_name
    ∧ (globals_init K).filter_min_success = 1
    ∧ (globals_init K).filter_max_success = (K.MISHEGOS_MAX_NWORKERS : Int)
    ∧ main_resolve_filter (globals_init K) nworkers = globals_init K := by
  have hmin : (main_resolve_filter g nworkers).filter_min_success
        = (if g.filter_min_success < 0 then (nworkers : Int) + 1 + g.filter_min_success
           else g.filter_min_success) := by
    unfold main_resolve_filter
    by_cases h1 : g.filter_min_success < 0 <;> by_cases h2 : g.filter_max_success < 0 <;>
      simp [h1, h2] <;> omega
  have hmax : (main_resolve_filter g nworkers).filter_max_success
        = (if g.filter_max_success < 0 then (nworkers : Int) + 1 + g.filter_max_success
           else g.filter_max_success) := by
    unfold main_resolve_filter
    by_cases h1 : g.filter_min_success < 0 <;> by_cases h2 : g.filter_max_success < 0 <;>
      simp [h1, h2] <;> omega
  refine ⟨hmin, hmax, ?_, ?_, ?_, ?_, ?_, ?_, ?_, rfl, rfl, ?_⟩
  · intro h; rw [hmin, h]; simp
  · intro h; rw [hmax, h]; simp
  · intro h; rw [hmin, h]; simp; omega
  · intro h; rw [hmax, h]; simp; omega
  · unfold main_resolve_filter
    by_cases h1 : g.filter_min_success < 0 <;> by_cases h2 : g.filter_max_success < 0 <;>
      simp [h1, h2]
  · unfold main_resolve_filter
    by_cases h1 : g.filter_min_success < 0 <;> by_cases h2 : g.filter_max_success < 0 <;>
      simp [h1, h2]
  · unfold main_resolve_filter
    by_cases h1 : g.filter_min_success < 0 <;> by_cases h2 : g.filter_max_success < 0 <;>
      simp [h1, h2]
  · have h2 : ¬ ((K.MISHEGOS_MAX_NWORKERS : Int) < 0) := by omega
    simp [main_resolve_filter, globals_init, h2]

/-- Claim C2: with the filter given as `-s 1:-2` and `-n` off, the bounds
resolve to 1 and N - 1, and `process` emits the input exactly when at least
one output is SUCCESS and at least one is not. -/
theorem C2_split_verdict (K : mish_common) (slot idx : Nat)
    (input_chunks : Nat → input_chunk) (nworkers : Nat) (workers : Nat → worker_config) :
    ∃ g, main_parse K (argv_of ["mishegos", "-s", "1:-2", "workers"]) = Except.ok g
      ∧ (main_resolve_filter g nworkers).filter_min_success = 1
      ∧ (main_resolve_filter g nworkers).filter_max_success = (nworkers : Int) - 1
      ∧ (main_resolve_filter g nworkers).filter_ndecoded_same = false
      ∧ (process_with K (main_resolve_filter g nworkers) slot idx input_chunks nworkers workers
            ≠ []
          ↔ (∃ j, j < nworkers
                ∧ (output_at workers slot idx j).status = decode_status.S_SUCCESS)
            ∧ (∃ j, j < nworkers
                ∧ (output_at workers slot idx j).status ≠ decode_status.S_SUCCESS)) := by
  refine ⟨{ globals_init K with filter_min_success := 1, filter_max_success := -2 },
    rfl, ?_, ?_, ?_, ?_⟩
  · simp [main_resolve_filter]
  · simp [main_resolve_filter]; omega
  · simp [main_resolve_filter, globals_init]
  · have hmin : (main_resolve_filter
        { globals_init K with filter_min_success := 1, filter_max_success := -2 }
        nworkers).filter_min_success = 1 := by simp [main_resolve_filter]
    have hmax : (main_resolve_filter
        { globals_init K with filter_min_success := 1, filter_max_success := -2 }
        nworkers).filter_max_success = (nworkers : Int) - 1 := by
      simp [main_resolve_filter]; omega
    have hn : (main_resolve_filter
        { globals_init K with filter_min_success := 1, filter_max_success := -2 }
        nworkers).filter_ndecoded_same = false := by
      simp [main_resolve_filter, globals_init]
    unfold process_with
    rw [process_ne_nil_iff, process_keep_iff, hmin, hmax, hn]
    have h1 := spec_num_success_pos_iff (outputs_of workers slot idx nworkers)
    have h2 := spec_num_success_lt_iff (outputs_of workers slot idx nworkers)
    rw [outputs_of_length] at h2
    have e1 : (∃ o ∈ outputs_of workers slot idx nworkers, o.status = decode_status.S_SUCCESS)
        ↔ ∃ j, j < nworkers
            ∧ (output_at workers slot idx j).status = decode_status.S_SUCCESS := by
      simp [outputs_of]
    have e2 : (∃ o ∈ outputs_of workers slot idx nworkers, o.status ≠ decode_status.S_SUCCESS)
        ↔ ∃ j, j < nworkers
            ∧ (output_at workers slot idx j).status ≠ decode_status.S_SUCCESS := by
      simp [outputs_of]
    rw [← e1, ← e2, ← h1, ← h2]
    simp only [Bool.false_eq_true, false_and, or_false]
    omega

/-- Claim C3: with `-n` on and the empty range `-s 1:0`, `process` emits the
input exactly when at least two outputs are SUCCESS and the SUCCESS outputs do
not all report the same `ndecoded`. -/
theorem C3_length_disagreement (K : mish_common) (slot idx : Nat)
    (input_chunks : Nat → input_chunk) (nworkers : Nat) (workers : Nat → worker_config) :
    ∃ g, main_parse K (argv_of ["mishegos", "-n", "-s", "1:0", "workers"]) = Except.ok g
      ∧ (main_resolve_filter g nworkers).filter_min_success = 1
      ∧ (main_resolve_filter g nworkers).filter_max_success = 0
      ∧ (main_resolve_filter g nworkers).filter_ndecoded_same = true
      ∧ (process_with K (main_resolve_filter g nworkers) slot idx input_chunks nworkers workers
            ≠ []
          ↔ 2 ≤ spec_num_success (outputs_of workers slot idx nworkers)
            ∧ ¬ spec_ndecoded_same (outputs_of workers slot idx nworkers))
      ∧ ((process_scan slot idx nworkers workers).ndecoded_same = false
          ↔ ∃ i, i < nworkers ∧ ∃ j, j < nworkers
              ∧ (output_at workers slot idx i).status = decode_status.S_SUCCESS
              ∧ (output_at workers slot idx j).status = decode_status.S_SUCCESS
              ∧ (output_at workers slot idx i).ndecoded
                  ≠ (output_at workers slot idx j).ndecoded) := by
  refine ⟨{ globals_init K with filter_min_success := 1, filter_max_success := 0,
                                 filter_ndecoded_same := true },
    rfl, ?_, ?_, ?_, ?_, ?_⟩
  · simp [main_resolve_filter]
  · simp [main_resolve_filter]
  · simp [main_resolve_filter]
  · have hg : main_resolve_filter
        { globals_init K with filter_min_success := 1, filter_max_success := 0,
                              filter_ndecoded_same := true } nworkers
        = { globals_init K with filter_min_success := 1, filter_max_success := 0,
                                filter_ndecoded_same := true } := by
      simp [main_resolve_filter]
    rw [hg]
    unfold process_with
    rw [process_ne_nil_iff, process_keep_iff]
    constructor
    · rintro (⟨h1, h2⟩ | ⟨_, h⟩)
      · simp only at h1 h2; omega
      · exact ⟨two_le_of_not_same _ h, h⟩
    · rintro ⟨_, h⟩
      exact Or.inr ⟨rfl, h⟩
  · have hs := process_scan_ndecoded_same slot idx nworkers workers
    have hb : (process_scan slot idx nworkers workers).ndecoded_same = false
        ↔ ¬ spec_ndecoded_same (outputs_of workers slot idx nworkers) := by
      rw [← hs]; simp
    rw [hb]
    unfold spec_ndecoded_same
    simp only [mem_outputs_of]
    push_neg
    constructor
    · rintro ⟨a, ⟨i, hi, rfl⟩, b, ⟨j, hj, rfl⟩, hsa, hsb, hne⟩
      exact ⟨i, hi, j, hj, hsa, hsb, hne⟩
    · rintro ⟨i, hi, j, hj, hsa, hsb, hne⟩
      exact ⟨_, ⟨i, hi, rfl⟩, _, ⟨j, hj, rfl⟩, hsa, hsb, hne⟩

/-! ## Documented behaviour that the code does not have -/

theorem main_case_s_thread_mode (g g1 : globals) (optarg : List Char)
    (h : main_case_s g optarg = Except.ok g1) : g1.thread_mode = g.thread_mode := by
  simp only [main_case_s] at h
  cases h1 : (strtol optarg).2 with
  | nil =>
    rw [h1] at h
    cases h; rfl
  | cons c rest =>
    rw [h1] at h
    by_cases hc : c = ':'
    · simp only [hc, if_true] at h
      cases h2 : (strtol rest).2 with
      | nil => rw [h2] at h; cases h; rfl
      | cons _ _ => rw [h2] at h; cases h
    · simp only [hc, if_false] at h
      cases h

theorem main_switch_thread_mode (g g1 : globals) (opt : Char) (optarg : List Char)
    (hg : g.thread_mode = false) (h : main_switch g opt optarg = Except.ok g1) :
    g1.thread_mode = false := by
  unfold main_switch at h
  split_ifs at h
  · cases h; rfl
  · cases h; exact hg
  · rw [main_case_s_thread_mode g g1 optarg h]; exact hg
  · cases h; exact hg

theorem main_getopt_loop_thread_mode (opts : List (Char × List Char)) :
    ∀ (g g1 : globals), g.thread_mode = false → main_getopt_loop g opts = Except.ok g1 →
      g1.thread_mode = false := by
  induction opts with
  | nil =>
    intro g g1 hg h
    simp only [main_getopt_loop] at h
    cases h; exact hg
  | cons o rest ih =>
    intro g g1 hg h
    obtain ⟨opt, optarg⟩ := o
    simp only [main_getopt_loop] at h
    split at h
    · next g2 h2 => exact ih g2 g1 (main_switch_thread_mode g g2 opt optarg hg h2) h
    · cases h

/-- Option parsing never turns thread mode on, whatever the command line. -/
theorem main_parse_thread_mode (K : mish_common) (argv : List (List Char)) (g : globals)
    (h : main_parse K argv = Except.ok g) : g.thread_mode = false :=
  main_getopt_loop_thread_mode _ _ _ rfl h

/-- With `-s -1` and at most `MISHEGOS_MAX_NWORKERS` workers, a sample is kept
exactly when every output is SUCCESS. -/
theorem minus_one_keeps_iff (K : mish_common) (slot idx : Nat)
    (input_chunks : Nat → input_chunk) (nworkers : Nat) (workers : Nat → worker_config)
    (hN : nworkers ≤ K.MISHEGOS_MAX_NWORKERS) :
    ∃ g, main_parse K (argv_of ["mishegos", "-s", "-1", "workers"]) = Except.ok g
      ∧ (process_with K (main_resolve_filter g nworkers) slot idx input_chunks nworkers workers
            ≠ []
          ↔ spec_num_success (outputs_of workers slot idx nworkers) = nworkers) := by
  refine ⟨{ globals_init K with filter_min_success := -1 }, rfl, ?_⟩
  have hg : main_resolve_filter { globals_init K with filter_min_success := -1 } nworkers
      = { globals_init K with filter_min_success := (nworkers : Int) } := by
    have h2 : ¬ ((K.MISHEGOS_MAX_NWORKERS : Int) < 0) := by omega
    simp [main_resolve_filter, globals_init, h2]
  rw [hg]
  unfold process_with
  rw [process_ne_nil_iff, process_keep_iff]
  have hle := spec_num_success_le (outputs_of workers slot idx nworkers)
  rw [outputs_of_length] at hle
  simp only [globals_init, Bool.false_eq_true, false_and, or_false]
  omega

/-- Claim C8 (the code at the failing input): with `-s -1` and two workers of
which exactly one succeeds (so the number of SUCCESS outputs is
`nworkers - 1`), the bound resolves to 2 and `process` emits nothing, while
with three workers of which two succeed it emits nothing either; the sample
is kept only when all outputs are SUCCESS. -/
theorem C8_minus_one_is_nworkers :
    main_parse example_common (argv_of ["mishegos", "-s", "-1", "workers"])
      = Except.ok { globals_init example_common with filter_min_success := -1 }
    ∧ (main_resolve_filter { globals_init example_common with filter_min_success := -1 }
        2).filter_min_success = 2
    ∧ spec_num_success (outputs_of example_workers 0 0 2) = 2 - 1
    ∧ process_with example_common
        (main_resolve_filter { globals_init example_common with filter_min_success := -1 } 2)
        0 0 example_input_chunks 2 example_workers = []
    ∧ spec_num_success (outputs_of example_workers3 0 0 3) = 3 - 1
    ∧ process_with example_common
        (main_resolve_filter { globals_init example_common with filter_min_success := -1 } 3)
        0 0 example_input_chunks 3 example_workers3 = []
    ∧ spec_num_success (outputs_of example_workers3 0 0 2) = 2
    ∧ process_with example_common
        (main_resolve_filter { globals_init example_common with filter_min_success := -1 } 2)
        0 0 example_input_chunks 2 example_workers3 ≠ [] := by
  refine ⟨rfl, by decide, by decide, by decide, by decide, by decide, by decide, by decide⟩

/-- Claim C9 (the code at the failing input): on the command line
`mishegos -t workers` option parsing succeeds and leaves `thread_mode` false,
exactly as without `-t`. -/
theorem C9_dash_t_keeps_process_mode :
    main_parse example_common (argv_of ["mishegos", "-t", "workers"])
      = Except.ok (globals_init example_common)
    ∧ (globals_init example_common).thread_mode = false
    ∧ main_parse example_common (argv_of ["mishegos", "workers"])
      = Except.ok (globals_init example_common) := by
  refine ⟨rfl, rfl, rfl⟩

/-! ## Crash and restart -/

theorem UINT32_MOD_eq : UINT32_MOD = 4294967296 := by decide

theorem pending_count_le (phase : Nat → worker_phase) (n : Nat) : pending_count phase n ≤ n := by
  induction n with
  | zero => simp [pending_count]
  | succ k ih =>
    simp only [pending_count]
    split_ifs <;> omega

theorem pending_count_congr (f g : Nat → worker_phase) (n : Nat)
    (h : ∀ v, v < n → f v = g v) : pending_count f n = pending_count g n := by
  induction n with
  | zero => rfl
  | succ k ih =>
    simp only [pending_count]
    rw [ih (fun v hv => h v (by omega)), h k (by omega)]

theorem pending_count_update (f : Nat → worker_phase) (w : Nat) (b : worker_phase) (n : Nat)
    (hw : w < n) :
    pending_count (Function.update f w b) n + (if f w = worker_phase.pending then 1 else 0)
      = pending_count f n + (if b = worker_phase.pending then 1 else 0) := by
  induction n with
  | zero => omega
  | succ k ih =>
    simp only [pending_count]
    by_cases hk : w = k
    · subst hk
      have h1 : pending_count (Function.update f w b) w = pending_count f w :=
        pending_count_congr _ _ _ (fun v hv => Function.update_noteq (by omega) _ _)
      rw [h1, Function.update_same]
      omega
    · have := ih (by omega)
      rw [Function.update_noteq (Ne.symm hk)]
      omega

theorem pending_count_const (n : Nat) :
    pending_count (fun _ => worker_phase.pending) n = n := by
  induction n with
  | zero => rfl
  | succ k ih => simp [pending_count, ih]

theorem pending_count_pos (f : Nat → worker_phase) (w n : Nat) (hw : w < n)
    (h : f w = worker_phase.pending) : 1 ≤ pending_count f n := by
  have := pending_count_update f w worker_phase.finished n hw
  simp [h] at this
  omega

theorem pending_count_lt (f : Nat → worker_phase) (w n : Nat) (hw : w < n)
    (h : f w ≠ worker_phase.pending) : pending_count f n < n := by
  have h1 := pending_count_update f w worker_phase.pending n hw
  have h2 := pending_count_le (Function.update f w worker_phase.pending) n
  simp [h] at h1
  omega

theorem worker_restarted_false_iff (s : mish_state) (nworkers : Nat) :
    worker_restarted s nworkers = false ↔ ∀ w, w < nworkers → (s.workers w).sigchld = false := by
  unfold worker_restarted
  rw [Bool.eq_false_iff]
  simp [List.any_eq_true]

theorem sigchld_handler_child_eq (s : mish_state) (w idx : Nat)
    (hfind : sigchld_find_chunk (s.workers w).output_chunks = some idx) :
    ((sigchld_handler_child s w).input_chunks idx).remaining_workers
        = (mish_atomic_fetch_add (s.input_chunks idx).remaining_workers MINUS_ONE).1
    ∧ ((sigchld_handler_child s w).workers w).sigchld = true
    ∧ ((sigchld_handler_child s w).workers w).start_idx = idx
    ∧ ∀ v, v ≠ w → (sigchld_handler_child s w).workers v = s.workers v := by
  simp only [sigchld_handler_child, hfind, Function.update_same]
  refine ⟨trivial, trivial, trivial, ?_⟩
  intro v hv
  exact Function.update_noteq hv _ _

theorem restart_worker_eq (s : mish_state) (w idx : Nat)
    (hsig : (s.workers w).sigchld = true) (hidx : (s.workers w).start_idx = idx) :
    ((restart_worker s w).input_chunks idx).remaining_workers
        = (mish_atomic_fetch_add (s.input_chunks idx).remaining_workers 1).1
    ∧ ((restart_worker s w).workers w).sigchld = false
    ∧ ∀ v, v ≠ w → (restart_worker s w).workers v = s.workers v := by
  simp only [restart_worker, hsig, if_true, hidx, Function.update_same]
  refine ⟨trivial, trivial, ?_⟩
  intro v hv
  exact Function.update_noteq hv _ _

theorem fetch_add_minus_one (x : Nat) (h1 : 1 ≤ x) (h2 : x < UINT32_MOD) :
    (mish_atomic_fetch_add x MINUS_ONE).1 + 1 = x := by
  simp only [mish_atomic_fetch_add, MINUS_ONE, UINT32_MOD_eq] at *
  omega

theorem fetch_add_one (x : Nat) (h2 : x + 1 < UINT32_MOD) :
    (mish_atomic_fetch_add x 1).1 = x + 1 := by
  simp only [mish_atomic_fetch_add, UINT32_MOD_eq] at *
  omega

theorem chunk_inv_init (nworkers idx : Nat) : chunk_inv nworkers idx chunk_run_init := by
  refine ⟨?_, ?_, ?_⟩
  · have : pending_count (fun _ => worker_phase.finished) nworkers = 0 := by
      induction nworkers with
      | zero => rfl
      | succ k ih => simp [pending_count, ih]
    simp [chunk_run_state.rw, chunk_run_init, mish_state_init, this]
  · intro w _; simp [chunk_run_init, mish_state_init]
  · intro w _ h; simp [chunk_run_init, mish_state_init] at h

/-- Effect of one enabled step on `remaining_workers`, and preservation of the
invariant. -/
theorem chunk_step_spec (nworkers idx : Nat) (hN : nworkers < UINT32_MOD)
    (s s1 : chunk_run_state) (e : chunk_event)
    (hinv : chunk_inv nworkers idx s) (hstep : chunk_step nworkers idx s e = some s1) :
    chunk_inv nworkers idx s1
    ∧ (e.is_publish = true → s.rw idx = 0 ∧ s1.rw idx = nworkers)
    ∧ (∀ w, e = chunk_event.restart w →
        s.phase w = worker_phase.crashed ∧ s1.rw idx = s.rw idx + 1)
    ∧ (e.is_publish = false → e.is_restart = false → s1.rw idx ≤ s.rw idx) := by
  obtain ⟨hrw, hsig, hidx⟩ := hinv
  cases e with
  | publish count gen =>
    simp only [chunk_step] at hstep
    split_ifs at hstep with hg
    cases hstep
    obtain ⟨h0, hnone⟩ := hg
    rw [worker_restarted_false_iff] at hnone
    have hnew : (Function.update s.shared.input_chunks idx
        (main_publish (s.shared.input_chunks idx) count nworkers gen) idx).remaining_workers
        = nworkers := by
      simp [main_publish, Nat.mod_eq_of_lt hN]
    refine ⟨⟨?_, ?_, ?_⟩, ?_, ?_, ?_⟩
    · simp only [chunk_run_state.rw, hnew, pending_count_const]
    · intro w hw
      simp only [hnone w hw]
      simp
    · intro w hw h
      simp only [hnone w hw] at h
      cases h
    · intro _
      exact ⟨h0, by simp only [chunk_run_state.rw, hnew]⟩
    · intro w h; cases h
    · intro h; simp [chunk_event.is_publish] at h
  | worker_store w r =>
    simp only [chunk_step] at hstep
    split_ifs at hstep with hg
    cases hstep
    obtain ⟨hw, hph⟩ := hg
    have hflag : ∀ v, ((store_remaining s.shared w idx r).workers v).sigchld
        = (s.shared.workers v).sigchld
        ∧ ((store_remaining s.shared w idx r).workers v).start_idx
        = (s.shared.workers v).start_idx := by
      intro v
      by_cases hv : v = w
      · subst hv; simp [store_remaining]
      · simp [store_remaining, Function.update_noteq hv]
    refine ⟨⟨?_, ?_, ?_⟩, ?_, ?_, ?_⟩
    · simpa [chunk_run_state.rw, store_remaining] using hrw
    · intro v hv; rw [(hflag v).1]; exact hsig v hv
    · intro v hv h; rw [(hflag v).1] at h; rw [(hflag v).2]; exact hidx v hv h
    · intro h; simp [chunk_event.is_publish] at h
    · intro v h; cases h
    · intro _ _; simp [chunk_run_state.rw, store_remaining]
  | worker_done w =>
    simp only [chunk_step] at hstep
    split_ifs at hstep with hg
    cases hstep
    obtain ⟨hw, hph, _⟩ := hg
    have hpos := pending_count_pos s.phase w nworkers hw hph
    have hle := pending_count_le s.phase nworkers
    have hdec := fetch_add_minus_one (s.rw idx) (by rw [hrw]; exact hpos) (by rw [hrw]; omega)
    have hcnt := pending_count_update s.phase w worker_phase.finished nworkers hw
    simp [hph] at hcnt
    have hnew : (Function.update s.shared.input_chunks idx
        (worker_finish_chunk (s.shared.input_chunks idx)) idx).remaining_workers + 1
        = s.rw idx := by
      simpa [worker_finish_chunk, chunk_run_state.rw] using hdec
    have hne : s.phase w ≠ worker_phase.crashed := by rw [hph]; decide
    refine ⟨⟨?_, ?_, ?_⟩, ?_, ?_, ?_⟩
    · simp only [chunk_run_state.rw] at hnew ⊢
      simp only [chunk_run_state.rw] at hrw
      omega
    · intro v hv
      dsimp only
      by_cases hvw : v = w
      · subst hvw
        rw [Function.update_same]
        have := (hsig v hv).not.2 hne
        simp [this]
      · rw [Function.update_noteq hvw]; exact hsig v hv
    · intro v hv h; exact hidx v hv h
    · intro h; simp [chunk_event.is_publish] at h
    · intro v h; cases h
    · intro _ _
      simp only [chunk_run_state.rw] at hnew ⊢
      omega
  | child_died w =>
    simp only [chunk_step] at hstep
    split_ifs at hstep with hg
    cases hstep
    obtain ⟨hw, hph, hfind⟩ := hg
    obtain ⟨hrw1, hs1, hi1, hoth⟩ := sigchld_handler_child_eq s.shared w idx hfind
    have hpos := pending_count_pos s.phase w nworkers hw hph
    have hle := pending_count_le s.phase nworkers
    have hdec := fetch_add_minus_one (s.rw idx) (by rw [hrw]; exact hpos) (by rw [hrw]; omega)
    have hcnt := pending_count_update s.phase w worker_phase.crashed nworkers hw
    simp [hph] at hcnt
    refine ⟨⟨?_, ?_, ?_⟩, ?_, ?_, ?_⟩
    · simp only [chunk_run_state.rw, hrw1] at hdec hrw ⊢
      omega
    · intro v hv
      dsimp only
      by_cases hvw : v = w
      · subst hvw
        simp [hs1]
      · rw [Function.update_noteq hvw, hoth v hvw]; exact hsig v hv
    · intro v hv h
      dsimp only at h ⊢
      by_cases hvw : v = w
      · subst hvw; exact hi1
      · rw [hoth v hvw] at h ⊢; exact hidx v hv h
    · intro h; simp [chunk_event.is_publish] at h
    · intro v h; cases h
    · intro _ _
      simp only [chunk_run_state.rw, hrw1] at hdec ⊢
      omega
  | restart w =>
    simp only [chunk_step] at hstep
    split_ifs at hstep with hg
    cases hstep
    obtain ⟨hw, hflag⟩ := hg
    have hcr : s.phase w = worker_phase.crashed := (hsig w hw).1 hflag
    obtain ⟨hrw1, hs1, hoth⟩ := restart_worker_eq s.shared w idx hflag (hidx w hw hflag)
    have hlt := pending_count_lt s.phase w nworkers hw (by rw [hcr]; decide)
    have hinc := fetch_add_one (s.rw idx) (by rw [hrw]; omega)
    have hcnt := pending_count_update s.phase w worker_phase.pending nworkers hw
    simp [hcr] at hcnt
    refine ⟨⟨?_, ?_, ?_⟩, ?_, ?_, ?_⟩
    · simp only [chunk_run_state.rw, hrw1] at hinc hrw ⊢
      omega
    · intro v hv
      dsimp only
      by_cases hvw : v = w
      · subst hvw
        simp [hs1]
      · rw [Function.update_noteq hvw, hoth v hvw]; exact hsig v hv
    · intro v hv h
      dsimp only at h ⊢
      by_cases hvw : v = w
      · subst hvw; rw [hs1] at h; cases h
      · rw [hoth v hvw] at h ⊢; exact hidx v hv h
    · intro h; simp [chunk_event.is_publish] at h
    · intro v h
      cases h
      refine ⟨hcr, ?_⟩
      simp only [chunk_run_state.rw, hrw1] at hinc ⊢
      exact hinc
    · intro _ h; simp [chunk_event.is_restart] at h

theorem chunk_run_inv (nworkers idx : Nat) (hN : nworkers < UINT32_MOD)
    (evs : List chunk_event) :
    ∀ (s0 s : chunk_run_state), chunk_inv nworkers idx s0 →
      chunk_run nworkers idx s0 evs = some s → chunk_inv nworkers idx s := by
  induction evs with
  | nil =>
    intro s0 s h0 h
    simp only [chunk_run] at h
    cases h; exact h0
  | cons e rest ih =>
    intro s0 s h0 h
    simp only [chunk_run] at h
    split at h
    · next s1 h1 => exact ih s1 s (chunk_step_spec nworkers idx hN s0 s1 e h0 h1).1 h
    · cases h

/-- Claim C10 (amended): in every reachable state of the step relation
`remaining_workers` is at most N (it counts the workers that still owe their
decrement); a publication happens only at 0 and sets it to N; every step other
than a publication and the restart sweep's increment leaves it unchanged or
lowers it, so at 0 such steps keep it 0; the restart sweep's increment raises
it by one, and only for a worker whose forced decrement by the crash handler
is outstanding. -/
theorem C10_remaining_workers_invariant (nworkers idx : Nat) (hN : nworkers < UINT32_MOD)
    (evs : List chunk_event) (s : chunk_run_state)
    (hrun : chunk_run nworkers idx chunk_run_init evs = some s) :
    s.rw idx ≤ nworkers
    ∧ s.rw idx = pending_count s.phase nworkers
    ∧ ∀ (e : chunk_event) (s1 : chunk_run_state), chunk_step nworkers idx s e = some s1 →
        s1.rw idx ≤ nworkers
        ∧ (e.is_publish = true → s.rw idx = 0 ∧ s1.rw idx = nworkers)
        ∧ (∀ w, e = chunk_event.restart w →
            s.phase w = worker_phase.crashed ∧ (s.shared.workers w).sigchld = true
              ∧ s1.rw idx = s.rw idx + 1)
        ∧ (e.is_publish = false → e.is_restart = false → s1.rw idx ≤ s.rw idx)
        ∧ (e.is_publish = false → e.is_restart = false → s.rw idx = 0 → s1.rw idx = 0) := by
  have hinv := chunk_run_inv nworkers idx hN evs chunk_run_init s (chunk_inv_init nworkers idx) hrun
  refine ⟨?_, hinv.1, ?_⟩
  · rw [hinv.1]; exact pending_count_le _ _
  · intro e s1 hstep
    obtain ⟨hinv1, hpub, hres, hmono⟩ := chunk_step_spec nworkers idx hN s s1 e hinv hstep
    refine ⟨?_, hpub, ?_, hmono, ?_⟩
    · rw [hinv1.1]; exact pending_count_le _ _
    · intro w hw
      obtain ⟨h1, h2⟩ := hres w hw
      subst hw
      simp only [chunk_step] at hstep
      split_ifs at hstep with hg
      exact ⟨h1, hg.2, h2⟩
    · intro h1 h2 h0
      have := hmono h1 h2
      omega

theorem C10_remaining_workers_invariant_witness :
    (2 : Nat) < UINT32_MOD
    ∧ chunk_run 2 0 chunk_run_init example_crash_run = some (example_crashed 2)
    ∧ (example_crashed 2).rw 0 ≤ 2
    ∧ (example_crashed 2).rw 0 = 1 :=
  ⟨by decide, rfl,
   (C10_remaining_workers_invariant 2 0 (by decide) example_crash_run (example_crashed 2) rfl).1,
   by decide⟩

/-- Claim C10 (counterexample): with one worker, after the chunk is published
and the worker dies inside it, the handler's forced decrement brings
`remaining_workers` to 0, and the restart sweep then raises it to 1 with no
publication in between; with two workers the same steps take it from 2 to 1
and back to 2 before it ever reaches 0.  So the word does increase between
publications. -/
theorem C10_restart_sweep_increases :
    rw_after 1 0 [chunk_event.publish 5 1] = some 1
    ∧ rw_after 1 0 example_crash_run = some 0
    ∧ rw_after 1 0 (example_crash_run ++ [chunk_event.restart 0]) = some 1
    ∧ rw_after 2 0 [chunk_event.publish 5 1] = some 2
    ∧ rw_after 2 0 example_crash_run = some 1
    ∧ rw_after 2 0 (example_crash_run ++ [chunk_event.restart 0]) = some 2
    ∧ ¬ spec_never_increases 1 0 := by
  refine ⟨by decide, by decide, by decide, by decide, by decide, by decide, ?_⟩
  intro h
  have h1 : chunk_run 1 0 chunk_run_init example_crash_run = some (example_crashed 1) := rfl
  have h2 : chunk_step 1 0 (example_crashed 1) (chunk_event.restart 0)
      = some (example_restarted 1) := rfl
  have h3 := h example_crash_run (example_crashed 1) (example_restarted 1)
    (chunk_event.restart 0) h1 h2 rfl
  have h4 : (example_restarted 1).rw 0 = 1 := by decide
  have h5 : (example_crashed 1).rw 0 = 0 := by decide
  omega

theorem advance_mod (C t : Nat) (hC : 0 < C) :
    (t % C + 1 = C → (t + 1) % C = 0 ∧ (t + 1) / C = t / C + 1)
    ∧ (t % C + 1 ≠ C → (t + 1) % C = t % C + 1 ∧ (t + 1) / C = t / C) := by
  have h := Nat.div_add_mod t C
  have hlt := Nat.mod_lt t hC
  constructor
  · intro h1
    have := (Nat.div_mod_unique (a := t + 1) (d := t / C + 1) (c := 0) hC).2
      ⟨by rw [Nat.mul_succ]; omega, hC⟩
    exact ⟨this.2, this.1⟩
  · intro h1
    have := (Nat.div_mod_unique (a := t + 1) (d := t / C) (c := t % C + 1) hC).2
      ⟨by omega, by omega⟩
    exact ⟨this.2, this.1⟩

theorem mod_ne_of_lt_lap (C u t : Nat) (h1 : u < t) (h2 : t < u + C) : u % C ≠ t % C := by
  intro h
  have hd : C ∣ t - u := (Nat.modEq_iff_dvd' (Nat.le_of_lt h1)).1 h
  have := Nat.le_of_dvd (by omega) hd
  omega

theorem lap_back_mod (C t : Nat) (h : C ≤ t) :
    (t - C) % C = t % C ∧ (0 < C → (t - C) / C + 1 = t / C) := by
  obtain ⟨u, rfl⟩ : ∃ u, t = u + C := ⟨t - C, by omega⟩
  refine ⟨by simp, ?_⟩
  intro hC
  rw [Nat.add_sub_cancel, Nat.add_div_right _ hC]

theorem slot_div_mod (S u i : Nat) (hi : i < S) :
    (u * S + i) / S = u ∧ (u * S + i) % S = i := by
  have hS : 0 < S := by omega
  have := (Nat.div_mod_unique (a := u * S + i) (d := u) (c := i) hS).2
    ⟨by rw [Nat.mul_comm]; omega, hi⟩
  exact this

theorem full_chunks_le (S m t : Nat) (ht : t < m / S) : (t + 1) * S ≤ m := by
  have h1 : (t + 1) * S ≤ (m / S) * S := Nat.mul_le_mul_right S ht
  have h2 := Nat.div_mul_le_self m S
  omega

theorem last_chunk_eq (S m : Nat) : (m / S) * S + m % S = m := by
  have := Nat.div_add_mod m S
  rw [Nat.mul_comm] at this
  exact this

theorem spec_chunk_count_le (D : ring_dims) (m t : Nat) (hS : 0 < D.slots_per_chunk)
    (ht : t ≤ m / D.slots_per_chunk) :
    t * D.slots_per_chunk + spec_chunk_count D m t ≤ m
    ∧ spec_chunk_count D m t ≤ D.slots_per_chunk
    ∧ (t < m / D.slots_per_chunk → spec_chunk_count D m t = D.slots_per_chunk)
    ∧ (t = m / D.slots_per_chunk →
        t * D.slots_per_chunk + spec_chunk_count D m t = m
        ∧ spec_chunk_count D m t < D.slots_per_chunk) := by
  unfold spec_chunk_count
  have hlast := last_chunk_eq D.slots_per_chunk m
  have hmod := Nat.mod_lt m hS
  by_cases h : t < m / D.slots_per_chunk
  · have := full_chunks_le D.slots_per_chunk m t h
    rw [Nat.add_mul] at this
    rw [if_pos h]
    exact ⟨by omega, le_refl _, fun _ => rfl, fun h2 => by omega⟩
  · have ht2 : t = m / D.slots_per_chunk := by omega
    rw [if_neg h]
    refine ⟨?_, by omega, fun h2 => absurd h2 h, fun _ => ⟨?_, hmod⟩⟩
    · rw [ht2]; omega
    · rw [ht2]; exact hlast

/-! ## Dispatcher loop: the fill loop and the workers -/

theorem main_fill_spec (n : Nat) :
    ∀ (inputs : Nat → input_slot) (i count : Nat) (mutator : List input_slot),
      (main_fill inputs n i count mutator).count = count + min n mutator.length
      ∧ (main_fill inputs n i count mutator).mutator = mutator.drop (min n mutator.length)
      ∧ ((main_fill inputs n i count mutator).exhausted = true ↔ mutator.length < n)
      ∧ (∀ j, j < min n mutator.length →
          (main_fill inputs n i count mutator).inputs (i + j) = mutator.getD j zero_slot)
      ∧ (∀ j, j < i → (main_fill inputs n i count mutator).inputs j = inputs j) := by
  induction n with
  | zero =>
    intro inputs i count mutator
    simp [main_fill]
  | succ k ih =>
    intro inputs i count mutator
    cases mutator with
    | nil => simp [main_fill]
    | cons x rest =>
      obtain ⟨h1, h2, h3, h4, h5⟩ := ih (Function.update inputs i x) (i + 1) (count + 1) rest
      simp only [main_fill, List.length_cons]
      have hmin : min (k + 1) (rest.length + 1) = min k rest.length + 1 := by omega
      refine ⟨by rw [h1, hmin]; omega, by rw [h2, hmin]; rfl, by rw [h3]; omega, ?_, ?_⟩
      · intro j hj
        cases j with
        | zero =>
          have h := h5 i (by omega)
          rw [Function.update_same] at h
          simpa using h
        | succ j1 =>
          have h := h4 j1 (by omega)
          have e : i + (j1 + 1) = i + 1 + j1 := by omega
          rw [e, h]
          simp
      · intro j hj
        rw [h5 j (by omega), Function.update_noteq (by omega)]

theorem worker_finish_chunk_spec (c : input_chunk) (h1 : 1 ≤ c.remaining_workers)
    (h2 : c.remaining_workers < UINT32_MOD) :
    ∃ y, (worker_finish_chunk c).remaining_workers = y ∧ y + 1 = c.remaining_workers
      ∧ (worker_finish_chunk c).input_count = c.input_count
      ∧ (worker_finish_chunk c).inputs = c.inputs
      ∧ (worker_finish_chunk c).generation = c.generation := by
  refine ⟨_, rfl, ?_, ?_, ?_, ?_⟩
  · simp only [worker_finish_chunk]
    exact fetch_add_minus_one c.remaining_workers h1 h2
  · simp only [worker_finish_chunk]
  · simp only [worker_finish_chunk]
  · simp only [worker_finish_chunk]

theorem worker_finish_foldl (l : List Nat) :
    ∀ (c : input_chunk), l.length ≤ c.remaining_workers → c.remaining_workers < UINT32_MOD →
      (l.foldl (fun c _ => worker_finish_chunk c) c).remaining_workers
          = c.remaining_workers - l.length
      ∧ (l.foldl (fun c _ => worker_finish_chunk c) c).input_count = c.input_count
      ∧ (l.foldl (fun c _ => worker_finish_chunk c) c).inputs = c.inputs
      ∧ (l.foldl (fun c _ => worker_finish_chunk c) c).generation = c.generation := by
  induction l with
  | nil =>
    intro c _ _
    simp only [List.foldl_nil, List.length_nil, Nat.sub_zero, and_self]
  | cons a rest ih =>
    intro c hlen hlt
    rw [List.length_cons] at hlen
    obtain ⟨y, hy, hy1, e2, e3, e4⟩ := worker_finish_chunk_spec c (by omega) hlt
    have hlt2 := hlt
    rw [UINT32_MOD_eq] at hlt2
    have hA : rest.length ≤ (worker_finish_chunk c).remaining_workers := by
      rw [hy]; omega
    have hB : (worker_finish_chunk c).remaining_workers < UINT32_MOD := by
      rw [hy, UINT32_MOD_eq]; omega
    obtain ⟨r1, r2, r3, r4⟩ := ih (worker_finish_chunk c) hA hB
    rw [List.foldl_cons, List.length_cons]
    refine ⟨?_, ?_, ?_, ?_⟩
    · rw [r1, hy]; omega
    · rw [r2, e2]
    · rw [r3, e3]
    · rw [r4, e4]

theorem workers_complete_spec (nworkers : Nat) (ic : input_chunk)
    (hrw : ic.remaining_workers = nworkers) (hN : nworkers < UINT32_MOD) :
    (workers_complete nworkers ic).remaining_workers = 0
    ∧ (workers_complete nworkers ic).input_count = ic.input_count
    ∧ (workers_complete nworkers ic).inputs = ic.inputs
    ∧ (workers_complete nworkers ic).generation = ic.generation := by
  unfold workers_complete
  obtain ⟨r1, r2, r3, r4⟩ := worker_finish_foldl (List.range nworkers) ic
    (by rw [List.length_range, hrw]) (by rw [hrw]; exact hN)
  refine ⟨?_, r2, r3, r4⟩
  rw [r1, List.length_range, hrw, Nat.sub_self]

/-! ## Dispatcher loop: one pass preserves the invariant -/

theorem spec_calls_add (D : ring_dims) (ins : List input_slot) (a b : Nat) :
    spec_calls D ins (a + b)
      = spec_calls D ins a ++ (List.range b).map (fun i =>
          ((a + i) / D.slots_per_chunk % D.num_chunks, (a + i) % D.slots_per_chunk,
            ins.getD (a + i) zero_slot)) := by
  unfold spec_calls
  rw [List.range_add, List.map_append, List.map_map]
  rfl

theorem spec_published_succ (D : ring_dims) (m n : Nat) :
    spec_published D m (n + 1)
      = spec_published D m n
        ++ [(n % D.num_chunks, 1 + n / D.num_chunks, spec_chunk_count D m n)] := by
  unfold spec_published
  rw [List.range_succ, List.map_append]
  rfl

theorem main_inv_init (D : ring_dims) (ins : List input_slot) :
    main_inv D ins 0 (main_init D ins) := by
  refine ⟨by simp [main_init], by simp [main_init], ?_, ?_, ?_, ?_, ?_, ?_, ?_⟩
  · intro _; simp [main_init]
  · intro h; exact absurd h (Nat.not_lt_zero _)
  · intro j; rfl
  · intro w; rfl
  · intro u hu; omega
  · simp [main_init, spec_calls, spec_processed]
  · simp [main_init, spec_published]

theorem spec_processed_lt (D : ring_dims) (m t : Nat) (h : t < D.num_chunks) :
    spec_processed D m t = 0 ∧ spec_processed D m (t + 1) = 0 := by
  unfold spec_processed
  have e1 : t - D.num_chunks = 0 := by omega
  have e2 : t + 1 - D.num_chunks = 0 := by omega
  rw [e1, e2]
  simp

theorem spec_processed_ge (D : ring_dims) (m t : Nat) (hS : 0 < D.slots_per_chunk)
    (h : D.num_chunks ≤ t) (hu : t - D.num_chunks ≤ m / D.slots_per_chunk) :
    spec_processed D m t = (t - D.num_chunks) * D.slots_per_chunk
    ∧ spec_processed D m (t + 1)
        = (t - D.num_chunks) * D.slots_per_chunk + spec_chunk_count D m (t - D.num_chunks) := by
  obtain ⟨hle, hleS, hfull, hlast⟩ := spec_chunk_count_le D m (t - D.num_chunks) hS hu
  unfold spec_processed
  have e : t + 1 - D.num_chunks = (t - D.num_chunks) + 1 := by omega
  rw [e, Nat.add_mul, Nat.one_mul]
  generalize (t - D.num_chunks) * D.slots_per_chunk = a at *
  generalize spec_chunk_count D m (t - D.num_chunks) = c at *
  rcases Nat.lt_or_eq_of_le hu with h1 | h1
  · have := hfull h1
    omega
  · have := hlast h1
    omega

theorem main_consume_eq (D : ring_dims) (ins : List input_slot) (t : Nat) (s : main_state)
    (hC : 0 < D.num_chunks) (hS : 0 < D.slots_per_chunk)
    (ht : t ≤ ins.length / D.slots_per_chunk + D.num_chunks)
    (hinv : main_inv D ins t s) :
    main_consume s = s.with_calls (spec_calls D ins (spec_processed D ins.length (t + 1))) := by
  obtain ⟨hidx, hgen, _, _, _, _, hchunk, hcalls, _⟩ := hinv
  unfold main_consume main_state.with_calls
  by_cases hlap : D.num_chunks ≤ t
  · obtain ⟨hm, hd⟩ := lap_back_mod D.num_chunks t hlap
    have hd := hd hC
    have hg : s.gen > 1 := by
      rw [hgen, ← hd]
      generalize (t - D.num_chunks) / D.num_chunks = q
      omega
    rw [if_pos hg]
    have hu : t - D.num_chunks ≤ ins.length / D.slots_per_chunk := by omega
    obtain ⟨hcnt, hin⟩ := hchunk (t - D.num_chunks) (by omega) hu (by omega)
    rw [hm, ← hidx] at hcnt hin
    obtain ⟨hle, hleS, hfull, hlast⟩ := spec_chunk_count_le D ins.length (t - D.num_chunks) hS hu
    obtain ⟨hprev, hnext⟩ := spec_processed_ge D ins.length t hS hlap hu
    rw [hprev] at hcalls
    dsimp only
    rw [hcnt, hnext, spec_calls_add, hcalls]
    congr 2
    apply List.map_congr_left
    intro i hi
    have hi : i < spec_chunk_count D ins.length (t - D.num_chunks) := List.mem_range.1 hi
    obtain ⟨h1, h2⟩ := slot_div_mod D.slots_per_chunk (t - D.num_chunks) i (by omega)
    rw [h1, h2, hin i hi, hm, hidx]
  · have hg : ¬ s.gen > 1 := by
      rw [hgen, Nat.div_eq_of_lt (by omega)]
      omega
    rw [if_neg hg]
    obtain ⟨e1, e2⟩ := spec_processed_lt D ins.length t (by omega)
    rw [e2]
    rw [e1] at hcalls
    rw [← hcalls]

theorem main_produce_spec (D : ring_dims) (nworkers : Nat) (ins : List input_slot) (t : Nat)
    (s : main_state)
    (hS : 0 < D.slots_per_chunk) (hS32 : D.slots_per_chunk < UINT32_MOD)
    (hN : nworkers < UINT32_MOD)
    (ht : t ≤ ins.length / D.slots_per_chunk)
    (hexit : s.exit_idx = D.num_chunks)
    (hmut : s.mutator = ins.drop (t * D.slots_per_chunk)) :
    (main_produce D nworkers s).idx = s.idx
    ∧ (main_produce D nworkers s).gen = s.gen
    ∧ (main_produce D nworkers s).calls = s.calls
    ∧ (main_produce D nworkers s).shared.workers = s.shared.workers
    ∧ (t < ins.length / D.slots_per_chunk →
        (main_produce D nworkers s).exit_idx = D.num_chunks
        ∧ (main_produce D nworkers s).mutator = ins.drop ((t + 1) * D.slots_per_chunk))
    ∧ (t = ins.length / D.slots_per_chunk →
        (main_produce D nworkers s).exit_idx = s.idx
        ∧ (main_produce D nworkers s).mutator = [])
    ∧ ((main_produce D nworkers s).shared.input_chunks s.idx).remaining_workers = 0
    ∧ ((main_produce D nworkers s).shared.input_chunks s.idx).input_count
        = spec_chunk_count D ins.length t
    ∧ (∀ i, i < spec_chunk_count D ins.length t →
        ((main_produce D nworkers s).shared.input_chunks s.idx).inputs i
          = ins.getD (t * D.slots_per_chunk + i) zero_slot)
    ∧ (∀ j, j ≠ s.idx →
        (main_produce D nworkers s).shared.input_chunks j = s.shared.input_chunks j)
    ∧ (main_produce D nworkers s).published
        = s.published ++ [(s.idx, s.gen, spec_chunk_count D ins.length t)] := by
  obtain ⟨hle, hleS, hfull, hlast⟩ := spec_chunk_count_le D ins.length t hS ht
  obtain ⟨f1, f2, f3, f4, _⟩ := main_fill_spec D.slots_per_chunk
    (s.shared.input_chunks s.idx).inputs 0 0 s.mutator
  have hlen : s.mutator.length = ins.length - t * D.slots_per_chunk := by
    rw [hmut, List.length_drop]
  have hmin : min D.slots_per_chunk s.mutator.length = spec_chunk_count D ins.length t := by
    rw [hlen]
    generalize t * D.slots_per_chunk = a at *
    generalize spec_chunk_count D ins.length t = c at *
    rcases Nat.lt_or_eq_of_le ht with h | h
    · have := hfull h; omega
    · have := hlast h; omega
  rw [hmin] at f1 f2 f4
  rw [Nat.zero_add] at f1
  have hcount32 : (main_fill (s.shared.input_chunks s.idx).inputs D.slots_per_chunk 0 0
      s.mutator).count % UINT32_MOD = spec_chunk_count D ins.length t := by
    rw [f1]; exact Nat.mod_eq_of_lt (lt_of_le_of_lt hleS hS32)
  have hpubrw : (main_publish { s.shared.input_chunks s.idx with
        inputs := (main_fill (s.shared.input_chunks s.idx).inputs D.slots_per_chunk 0 0
          s.mutator).inputs }
      (main_fill (s.shared.input_chunks s.idx).inputs D.slots_per_chunk 0 0 s.mutator).count
      nworkers s.gen).remaining_workers = nworkers := by
    simp only [main_publish]
    exact Nat.mod_eq_of_lt hN
  obtain ⟨w1, w2, w3, _⟩ := workers_complete_spec nworkers _ hpubrw hN
  have hcnt : (main_publish { s.shared.input_chunks s.idx with
        inputs := (main_fill (s.shared.input_chunks s.idx).inputs D.slots_per_chunk 0 0
          s.mutator).inputs }
      (main_fill (s.shared.input_chunks s.idx).inputs D.slots_per_chunk 0 0 s.mutator).count
      nworkers s.gen).input_count = spec_chunk_count D ins.length t := by
    simp only [main_publish]
    exact hcount32
  have hinp : (main_publish { s.shared.input_chunks s.idx with
        inputs := (main_fill (s.shared.input_chunks s.idx).inputs D.slots_per_chunk 0 0
          s.mutator).inputs }
      (main_fill (s.shared.input_chunks s.idx).inputs D.slots_per_chunk 0 0 s.mutator).count
      nworkers s.gen).inputs
      = (main_fill (s.shared.input_chunks s.idx).inputs D.slots_per_chunk 0 0
          s.mutator).inputs := by
    simp only [main_publish]
  unfold main_produce
  rw [if_pos hexit]
  dsimp only
  refine ⟨rfl, rfl, rfl, rfl, ?_, ?_, ?_, ?_, ?_, ?_, ?_⟩
  · intro h
    have hnot : ¬ (s.mutator.length < D.slots_per_chunk) := by
      have := hfull h; omega
    have hex : (main_fill (s.shared.input_chunks s.idx).inputs D.slots_per_chunk 0 0
        s.mutator).exhausted = false := by
      rw [← Bool.not_eq_true, f3]; exact hnot
    refine ⟨by rw [hex]; simpa using hexit, ?_⟩
    rw [f2, hmut, List.drop_drop, hfull h, Nat.add_mul, Nat.one_mul]
  · intro h
    have hl := (hlast h).1
    have hex : (main_fill (s.shared.input_chunks s.idx).inputs D.slots_per_chunk 0 0
        s.mutator).exhausted = true := by
      rw [f3]
      have := (hlast h).2
      omega
    refine ⟨by rw [hex]; simp, ?_⟩
    rw [f2, hmut, List.drop_drop, hl]
    exact List.drop_length _
  · rw [Function.update_same]; exact w1
  · rw [Function.update_same, w2]; exact hcnt
  · intro i hi
    rw [Function.update_same, w3, hinp]
    have := f4 i hi
    rw [Nat.zero_add] at this
    rw [this, hmut, List.getD_eq_getElem?_getD, List.getD_eq_getElem?_getD,
      List.getElem?_drop]
  · intro j hj
    exact Function.update_noteq hj _ _
  · rw [hcnt]

theorem main_advance_spec (D : ring_dims) (s : main_state) (t : Nat) (hC : 0 < D.num_chunks)
    (hidx : s.idx = t % D.num_chunks) (hgen : s.gen = 1 + t / D.num_chunks)
    (hb : 2 + t / D.num_chunks < UINT64_MOD) :
    (main_advance D s).idx = (t + 1) % D.num_chunks
    ∧ (main_advance D s).gen = 1 + (t + 1) / D.num_chunks
    ∧ (main_advance D s).exit_idx = s.exit_idx
    ∧ (main_advance D s).shared = s.shared
    ∧ (main_advance D s).mutator = s.mutator
    ∧ (main_advance D s).calls = s.calls
    ∧ (main_advance D s).published = s.published := by
  obtain ⟨hwrap, hstay⟩ := advance_mod D.num_chunks t hC
  unfold main_advance
  by_cases h : s.idx + 1 = D.num_chunks
  · obtain ⟨h1, h2⟩ := hwrap (by rw [← hidx]; exact h)
    rw [if_pos h]
    refine ⟨h1.symm, ?_, rfl, rfl, rfl, rfl, rfl⟩
    dsimp only
    rw [h2, hgen, Nat.mod_eq_of_lt (by omega)]
    omega
  · obtain ⟨h1, h2⟩ := hstay (by rw [← hidx]; exact h)
    rw [if_neg h]
    refine ⟨?_, ?_, rfl, rfl, rfl, rfl, rfl⟩
    · dsimp only; rw [h1, hidx]
    · dsimp only; rw [h2, hgen]

theorem main_iteration_enter (D : ring_dims) (thread_mode : Bool) (nworkers : Nat)
    (s : main_state)
    (hrw : ∀ j, (s.shared.input_chunks j).remaining_workers = 0)
    (hflag : ∀ w, (s.shared.workers w).sigchld = false) :
    main_iteration D thread_mode nworkers s
      = (if (main_consume s).idx = (main_consume s).exit_idx
          then main_outcome.finished (main_consume s)
          else main_outcome.next
            (main_advance D (main_produce D nworkers (main_consume s)))) := by
  unfold main_iteration
  have h1 : worker_restarted s.shared nworkers = false :=
    (worker_restarted_false_iff _ _).2 (fun w _ => hflag w)
  rw [if_neg (by rw [hrw s.idx]; exact fun h => h rfl), h1]
  simp

theorem main_inv_step (D : ring_dims) (thread_mode : Bool) (nworkers : Nat)
    (ins : List input_slot) (t : Nat) (s : main_state)
    (hC : 0 < D.num_chunks) (hS : 0 < D.slots_per_chunk) (hS32 : D.slots_per_chunk < UINT32_MOD)
    (hN : nworkers < UINT32_MOD)
    (hG : 2 + (ins.length / D.slots_per_chunk + D.num_chunks) / D.num_chunks < UINT64_MOD)
    (ht : t < ins.length / D.slots_per_chunk + D.num_chunks)
    (hinv : main_inv D ins t s) :
    ∃ s1, main_iteration D thread_mode nworkers s = main_outcome.next s1
      ∧ main_inv D ins (t + 1) s1 := by
  have hcons := main_consume_eq D ins t s hC hS (Nat.le_of_lt ht) hinv
  obtain ⟨hidx, hgen, hlive, hdrain, hrw, hflag, hchunk, hcalls, hpub⟩ := hinv
  have hb : 2 + t / D.num_chunks < UINT64_MOD := by
    have h1 := Nat.div_le_div_right (c := D.num_chunks) (Nat.le_of_lt ht)
    generalize t / D.num_chunks = a at h1
    generalize (ins.length / D.slots_per_chunk + D.num_chunks) / D.num_chunks = b at h1 hG
    omega
  have hmodlt := Nat.mod_lt t hC
  rw [main_iteration_enter D thread_mode nworkers s hrw hflag, hcons]
  -- the state after the consume step
  have c_idx : (s.with_calls (spec_calls D ins (spec_processed D ins.length (t + 1)))).idx
      = t % D.num_chunks := hidx
  have c_gen : (s.with_calls (spec_calls D ins (spec_processed D ins.length (t + 1)))).gen
      = 1 + t / D.num_chunks := hgen
  have c_exit : (s.with_calls (spec_calls D ins (spec_processed D ins.length (t + 1)))).exit_idx
      = s.exit_idx := rfl
  have c_mut : (s.with_calls (spec_calls D ins (spec_processed D ins.length (t + 1)))).mutator
      = s.mutator := rfl
  have c_shared : (s.with_calls (spec_calls D ins (spec_processed D ins.length (t + 1)))).shared
      = s.shared := rfl
  have c_calls : (s.with_calls (spec_calls D ins (spec_processed D ins.length (t + 1)))).calls
      = spec_calls D ins (spec_processed D ins.length (t + 1)) := rfl
  have c_pub : (s.with_calls (spec_calls D ins (spec_processed D ins.length (t + 1)))).published
      = s.published := rfl
  generalize s.with_calls (spec_calls D ins (spec_processed D ins.length (t + 1))) = sc at *
  by_cases hT : t ≤ ins.length / D.slots_per_chunk
  · -- a chunk is produced
    obtain ⟨hexit, hmut⟩ := hlive hT
    rw [if_neg (by rw [c_exit, hexit, c_idx]; exact Nat.ne_of_lt hmodlt)]
    have hpub1 : s.published = spec_published D ins.length t := by
      rw [hpub]; congr 1; omega
    obtain ⟨p1, p2, p3, p4, p5, p6, p7, p8, p9, p10, p11⟩ :=
      main_produce_spec D nworkers ins t sc hS hS32 hN hT (by rw [c_exit, hexit])
        (by rw [c_mut, hmut])
    rw [c_idx] at p6 p7 p8 p9 p10 p11
    rw [c_gen, c_pub, hpub1, ← spec_published_succ] at p11
    rw [c_shared] at p4 p10
    obtain ⟨a1, a2, a3, a4, a5, a6, a7⟩ := main_advance_spec D
      (main_produce D nworkers sc) t hC
      (by rw [p1]; exact c_idx) (by rw [p2]; exact c_gen) hb
    refine ⟨_, rfl, a1, a2, ?_, ?_, ?_, ?_, ?_, ?_, ?_⟩
    · intro h
      rw [a3, a5]
      exact p5 (by omega)
    · intro h
      have e : t = ins.length / D.slots_per_chunk := by omega
      rw [a3, a5]
      have h6 := p6 e
      rw [e] at h6
      exact h6
    · intro j
      rw [a4]
      by_cases hj : j = t % D.num_chunks
      · rw [hj]; exact p7
      · rw [p10 j hj]; exact hrw j
    · intro w
      rw [a4, p4]; exact hflag w
    · intro u hu1 hu2 hu3
      rw [a4]
      by_cases hut : u = t
      · rw [hut]; exact ⟨p8, p9⟩
      · have hne := mod_ne_of_lt_lap D.num_chunks u t (by omega) (by omega)
        rw [p10 _ hne]
        exact hchunk u (by omega) hu2 (by omega)
    · rw [a6, p3, c_calls]
    · rw [a7, p11]
      congr 1
      omega
  · -- the mutator is exhausted: nothing is produced
    have hT1 : ins.length / D.slots_per_chunk < t := by omega
    obtain ⟨hexit, hmut⟩ := hdrain hT1
    have hne := mod_ne_of_lt_lap D.num_chunks (ins.length / D.slots_per_chunk) t hT1 ht
    have hexlt := Nat.mod_lt (ins.length / D.slots_per_chunk) hC
    rw [if_neg (by rw [c_exit, hexit, c_idx]; exact fun h => hne h.symm)]
    have hprod : main_produce D nworkers sc = sc := by
      unfold main_produce
      rw [if_neg (by rw [c_exit, hexit]; exact Nat.ne_of_lt hexlt)]
    rw [hprod]
    obtain ⟨a1, a2, a3, a4, a5, a6, a7⟩ := main_advance_spec D sc t hC c_idx c_gen hb
    refine ⟨_, rfl, a1, a2, ?_, ?_, ?_, ?_, ?_, ?_, ?_⟩
    · intro h; omega
    · intro _
      rw [a3, a5, c_exit, c_mut]
      exact ⟨hexit, hmut⟩
    · intro j; rw [a4, c_shared]; exact hrw j
    · intro w; rw [a4, c_shared]; exact hflag w
    · intro u hu1 hu2 hu3
      rw [a4, c_shared]
      exact hchunk u (by omega) hu2 (by omega)
    · rw [a6, c_calls]
    · rw [a7, c_pub, hpub]
      congr 1
      omega

theorem spec_processed_all (D : ring_dims) (m : Nat) (hS : 0 < D.slots_per_chunk) :
    spec_processed D m (m / D.slots_per_chunk + D.num_chunks + 1) = m := by
  unfold spec_processed
  have hlast := last_chunk_eq D.slots_per_chunk m
  have hmod := Nat.mod_lt m hS
  generalize m / D.slots_per_chunk = q at *
  have e : q + D.num_chunks + 1 - D.num_chunks = q + 1 := by omega
  rw [e, Nat.add_mul, Nat.one_mul]
  generalize q * D.slots_per_chunk = a at *
  omega

theorem main_inv_final (D : ring_dims) (thread_mode : Bool) (nworkers : Nat)
    (ins : List input_slot) (s : main_state)
    (hC : 0 < D.num_chunks) (hS : 0 < D.slots_per_chunk)
    (hinv : main_inv D ins (ins.length / D.slots_per_chunk + D.num_chunks) s) :
    ∃ s1, main_iteration D thread_mode nworkers s = main_outcome.finished s1
      ∧ s1.calls = spec_calls D ins ins.length
      ∧ s1.published = spec_published D ins.length (ins.length / D.slots_per_chunk + 1)
      ∧ s1.idx = (ins.length / D.slots_per_chunk) % D.num_chunks
      ∧ s1.exit_idx = (ins.length / D.slots_per_chunk) % D.num_chunks
      ∧ s1.mutator = [] := by
  have hcons := main_consume_eq D ins _ s hC hS (le_refl _) hinv
  obtain ⟨hidx, hgen, hlive, hdrain, hrw, hflag, hchunk, hcalls, hpub⟩ := hinv
  obtain ⟨hexit, hmut⟩ := hdrain (Nat.lt_add_of_pos_right hC)
  rw [Nat.add_mod_right] at hidx
  rw [main_iteration_enter D thread_mode nworkers s hrw hflag, hcons,
    spec_processed_all D ins.length hS]
  have c_idx : (s.with_calls (spec_calls D ins ins.length)).idx = s.idx := rfl
  have c_exit : (s.with_calls (spec_calls D ins ins.length)).exit_idx = s.exit_idx := rfl
  have c_mut : (s.with_calls (spec_calls D ins ins.length)).mutator = s.mutator := rfl
  have c_calls : (s.with_calls (spec_calls D ins ins.length)).calls
      = spec_calls D ins ins.length := rfl
  have c_pub : (s.with_calls (spec_calls D ins ins.length)).published = s.published := rfl
  rw [if_pos (by rw [c_idx, c_exit, hexit, hidx])]
  refine ⟨_, rfl, c_calls, ?_, ?_, ?_, ?_⟩
  · rw [c_pub, hpub]
    congr 1
    generalize ins.length / D.slots_per_chunk = q
    omega
  · rw [c_idx, hidx]
  · rw [c_exit, hexit]
  · rw [c_mut, hmut]

theorem main_loop_from (D : ring_dims) (thread_mode : Bool) (nworkers : Nat)
    (ins : List input_slot)
    (hC : 0 < D.num_chunks) (hS : 0 < D.slots_per_chunk) (hS32 : D.slots_per_chunk < UINT32_MOD)
    (hN : nworkers < UINT32_MOD)
    (hG : 2 + (ins.length / D.slots_per_chunk + D.num_chunks) / D.num_chunks < UINT64_MOD)
    (k : Nat) :
    ∀ (t : Nat) (s : main_state), t + k = ins.length / D.slots_per_chunk + D.num_chunks →
      main_inv D ins t s →
      ∃ final, (∀ fuel, k + 1 ≤ fuel →
          main_loop D thread_mode nworkers fuel s = some final)
        ∧ (∀ fuel, fuel ≤ k → main_loop D thread_mode nworkers fuel s = none)
        ∧ final.calls = spec_calls D ins ins.length
        ∧ final.published
            = spec_published D ins.length (ins.length / D.slots_per_chunk + 1)
        ∧ final.idx = (ins.length / D.slots_per_chunk) % D.num_chunks
        ∧ final.exit_idx = (ins.length / D.slots_per_chunk) % D.num_chunks
        ∧ final.mutator = [] := by
  induction k with
  | zero =>
    intro t s ht hinv
    have e : t = ins.length / D.slots_per_chunk + D.num_chunks := by omega
    subst e
    obtain ⟨s1, h1, h2⟩ := main_inv_final D thread_mode nworkers ins s hC hS hinv
    refine ⟨s1, ?_, ?_, h2⟩
    · intro fuel hf
      obtain ⟨f, rfl⟩ : ∃ f, fuel = f + 1 := ⟨fuel - 1, by omega⟩
      simp only [main_loop, h1]
    · intro fuel hf
      have e : fuel = 0 := by omega
      subst e
      rfl
  | succ k ih =>
    intro t s ht hinv
    obtain ⟨s1, h1, h2⟩ := main_inv_step D thread_mode nworkers ins t s hC hS hS32 hN hG
      (by omega) hinv
    obtain ⟨final, hf1, hf0, hrest⟩ := ih (t + 1) s1 (by omega) h2
    refine ⟨final, ?_, ?_, hrest⟩
    · intro fuel hf
      obtain ⟨f, rfl⟩ : ∃ f, fuel = f + 1 := ⟨fuel - 1, by omega⟩
      simp only [main_loop, h1]
      exact hf1 f (by omega)
    · intro fuel hf
      cases fuel with
      | zero => rfl
      | succ f =>
        simp only [main_loop, h1]
        exact hf0 f (by omega)

theorem range_map_getD (l : List input_slot) :
    (List.range l.length).map (fun k => l.getD k zero_slot) = l := by
  apply List.ext_getElem
  · simp
  · intro n h1 h2
    simp [List.getD_eq_getElem?_getD, List.getElem?_eq_getElem h2]

theorem spec_calls_inputs (D : ring_dims) (ins : List input_slot) :
    (spec_calls D ins ins.length).map (fun c => c.2.2) = ins := by
  unfold spec_calls
  rw [List.map_map]
  exact range_map_getD ins

theorem spec_calls_places (D : ring_dims) (ins : List input_slot) :
    (spec_calls D ins ins.length).map (fun c => (c.1, c.2.1))
      = (List.range ins.length).map
          (fun k => (k / D.slots_per_chunk % D.num_chunks, k % D.slots_per_chunk)) := by
  unfold spec_calls
  rw [List.map_map]
  rfl

/-- Claim C4: in the sequential model (no crash, every published chunk
completed by all workers) and for every list of inputs that the mutator yields
before it returns false, the dispatcher loop terminates after
`M / S + C + 1` passes; it publishes `M / S` chunks with `input_count = S` and
a last chunk with `input_count = M mod S < S`; it calls the filter/emit step
exactly once for each produced input, in production order, input `k` at chunk
`(k / S) mod C`, slot `k mod S`, and for nothing else; and it exits at
`idx = exit_idx = (M / S) mod C`.  For `M = S + 3` chunk 0 is consumed with `S`
slots, chunk 1 with 3 slots, and the loop exits at index 1. -/
theorem C4_dispatcher_loop (thread_mode : Bool) (nworkers : Nat) (ins : List input_slot)
    (hN : nworkers < UINT32_MOD) (hM : ins.length < UINT64_MOD) :
    ∃ final,
      (∀ fuel, ins.length / MISHEGOS_NUM_SLOTS_PER_CHUNK + MISHEGOS_NUM_CHUNKS + 1 ≤ fuel →
        main_loop mishegos_dims thread_mode nworkers fuel (main_init mishegos_dims ins)
          = some final)
      ∧ final.published = (List.range (ins.length / MISHEGOS_NUM_SLOTS_PER_CHUNK + 1)).map
          (fun t => (t % MISHEGOS_NUM_CHUNKS, 1 + t / MISHEGOS_NUM_CHUNKS,
            if t < ins.length / MISHEGOS_NUM_SLOTS_PER_CHUNK then MISHEGOS_NUM_SLOTS_PER_CHUNK
            else ins.length % MISHEGOS_NUM_SLOTS_PER_CHUNK))
      ∧ ins.length % MISHEGOS_NUM_SLOTS_PER_CHUNK < MISHEGOS_NUM_SLOTS_PER_CHUNK
      ∧ final.calls = (List.range ins.length).map (fun k =>
          (k / MISHEGOS_NUM_SLOTS_PER_CHUNK % MISHEGOS_NUM_CHUNKS,
            k % MISHEGOS_NUM_SLOTS_PER_CHUNK, ins.getD k zero_slot))
      ∧ final.calls.map (fun c => c.2.2) = ins
      ∧ final.calls.length = ins.length
      ∧ final.idx = (ins.length / MISHEGOS_NUM_SLOTS_PER_CHUNK) % MISHEGOS_NUM_CHUNKS
      ∧ final.exit_idx = final.idx
      ∧ final.mutator = []
      ∧ (ins.length = MISHEGOS_NUM_SLOTS_PER_CHUNK + 3 →
          final.published
              = [(0, 1, MISHEGOS_NUM_SLOTS_PER_CHUNK), (1, 1, 3)]
            ∧ final.idx = 1 ∧ final.exit_idx = 1
            ∧ final.calls.map (fun c => (c.1, c.2.1))
                = (List.range MISHEGOS_NUM_SLOTS_PER_CHUNK).map (fun i => (0, i))
                  ++ [(1, 0), (1, 1), (1, 2)]) := by
  have h64 : UINT64_MOD = 18446744073709551616 := by decide
  have hC : mishegos_dims.num_chunks = 16 := rfl
  have hS : mishegos_dims.slots_per_chunk = 4096 := rfl
  have hC1 : MISHEGOS_NUM_CHUNKS = 16 := rfl
  have hS1 : MISHEGOS_NUM_SLOTS_PER_CHUNK = 4096 := rfl
  obtain ⟨final, hrun, _, hcalls, hpub, hidx, hexit, hmut⟩ :=
    main_loop_from mishegos_dims thread_mode nworkers ins
      (by rw [hC]; decide) (by rw [hS]; decide) (by rw [hS, UINT32_MOD_eq]; decide) hN
      (by rw [hC, hS, h64]; rw [h64] at hM; omega)
      (ins.length / mishegos_dims.slots_per_chunk + mishegos_dims.num_chunks) 0
      (main_init mishegos_dims ins) (by omega) (main_inv_init mishegos_dims ins)
  have hinputs : final.calls.map (fun c => c.2.2) = ins := by
    rw [hcalls]; exact spec_calls_inputs _ _
  refine ⟨final, hrun, hpub, ?_, hcalls, hinputs, ?_, hidx, ?_, hmut, ?_⟩
  · rw [hS1]; omega
  · rw [hcalls]; simp [spec_calls]
  · rw [hexit, hidx]
  · intro hlen
    have hq : ins.length / mishegos_dims.slots_per_chunk = 1 := by
      rw [hS, hlen, hS1]
    refine ⟨?_, ?_, ?_, ?_⟩
    · rw [hpub, hq, hlen, hS1]
      decide
    · rw [hidx, hq]; rfl
    · rw [hexit, hq]; rfl
    · have hA : (List.range MISHEGOS_NUM_SLOTS_PER_CHUNK).map
          (fun k => (k / mishegos_dims.slots_per_chunk % mishegos_dims.num_chunks,
            k % mishegos_dims.slots_per_chunk))
          = (List.range MISHEGOS_NUM_SLOTS_PER_CHUNK).map (fun i => (0, i)) := by
        apply List.map_congr_left
        intro k hk
        have hk1 : k < MISHEGOS_NUM_SLOTS_PER_CHUNK := List.mem_range.1 hk
        rw [hS1] at hk1
        have h1 : k / 4096 = 0 := by omega
        have h2 : k % 4096 = k := by omega
        rw [hS, hC, h1, h2]
      rw [hcalls, spec_calls_places, hlen, List.range_add, List.map_append, hA,
        List.append_cancel_left_eq]
      decide

theorem C4_dispatcher_loop_witness :
    (2 : Nat) < UINT32_MOD
    ∧ [example_input 7, example_input 8, example_input 9].length < UINT64_MOD
    ∧ ∃ final,
        main_loop mishegos_dims false 2 17
          (main_init mishegos_dims [example_input 7, example_input 8, example_input 9])
          = some final
        ∧ final.calls = [(0, 0, example_input 7), (0, 1, example_input 8),
            (0, 2, example_input 9)]
        ∧ final.published = [(0, 1, 3)] := by
  obtain ⟨final, h1, h2, _, h4, _⟩ := C4_dispatcher_loop false 2
    [example_input 7, example_input 8, example_input 9] (by decide) (by decide)
  exact ⟨by decide, by decide, final, h1 17 (by decide), h4, h2⟩

end Mishegos
